import Mathlib

/-!
Verification of the hierarchical timing-annotation engine of the
karaoke-frontend repository.

The definitions below are a shallow embedding of the timing logic found in
src/components/LyricsInputPage.jsx (the TimingSyncPage component) and
src/components/LyricsPlaybackScreen.jsx.  JavaScript numbers are modelled by
exact arithmetic: integer-valued timestamps by Int, intermediate fractional
values by Rat.  Math.round is modelled by jsRound, the JavaScript truthiness
of a voice id (0 is falsy) by jsOrV, and deleted object fields by Option.
-/

set_option maxHeartbeats 1000000

namespace Karaoke

/-- Math.round on an exact rational: round half toward positive infinity. -/
def jsRound (q : ℚ) : ℤ := Rat.floor (q + 1/2)

/-- The Batteries floor on Rat agrees with the Mathlib floor. -/
theorem ratFloor_eq_floor (q : ℚ) : Rat.floor q = ⌊q⌋ :=
  (Rat.floor_def' q).trans Rat.floor_def.symm

theorem jsRound_def (q : ℚ) : jsRound q = ⌊q + 1/2⌋ := ratFloor_eq_floor _

/-- Evaluation rule for jsRound used on concrete inputs. -/
theorem jsRound_eq_of (q : ℚ) (z : ℤ) (h1 : (z:ℚ) ≤ q + 1/2) (h2 : q + 1/2 < z + 1) :
    jsRound q = z := by
  rw [jsRound_def]
  exact Int.floor_eq_iff.mpr ⟨h1, h2⟩

theorem jsRound_intCast (z : ℤ) : jsRound (z : ℚ) = z := by
  apply jsRound_eq_of <;> norm_num

theorem jsRound_mono {q r : ℚ} (h : q ≤ r) : jsRound q ≤ jsRound r := by
  rw [jsRound_def, jsRound_def]
  exact Int.floor_le_floor (by linarith)

theorem jsRound_lt_of_add_one_le {q r : ℚ} (h : q + 1 ≤ r) : jsRound q < jsRound r := by
  rw [jsRound_def, jsRound_def]
  have h1 : ⌊q + 1/2⌋ + 1 = ⌊q + 1/2 + 1⌋ := (Int.floor_add_one _).symm
  have h2 : ⌊q + 1/2 + 1⌋ ≤ ⌊r + 1/2⌋ := Int.floor_le_floor (by linarith)
  omega

/-- JavaScript a or-else b on voice ids, where the id 0 is falsy. -/
def jsOrV (a b : ℕ) : ℕ := if a = 0 then b else a

theorem jsOrV_idem (a b : ℕ) : jsOrV (jsOrV a b) b = jsOrV a b := by
  unfold jsOrV
  split <;> simp_all

/-! ## The annotation document

Tokens carry text, start and end timestamps in milliseconds (0,0 is the
sentinel for not yet timed), a voice id (0 means unassigned) and a position
string.  The chars array of a word and the words array of a line may be
absent, which Option models; the lines array of a block is always present. -/

structure CharTok where
  text : String
  start : ℤ
  end_ : ℤ
  voice : ℕ
  position : String
deriving DecidableEq

structure Word where
  text : String
  start : ℤ
  end_ : ℤ
  voice : ℕ
  position : String
  chars : Option (List CharTok)
deriving DecidableEq

structure Line where
  text : String
  start : ℤ
  end_ : ℤ
  voice : ℕ
  position : String
  words : Option (List Word)
deriving DecidableEq

structure Block where
  text : String
  start : ℤ
  end_ : ℤ
  voice : ℕ
  position : String
  lines : List Line
deriving DecidableEq

structure Doc where
  blocks : List Block
deriving DecidableEq

/-- The timed filter of cleanupTimingData: typeof start and end are number
and (start !== 0 or end !== 0), i.e. the pair is not the sentinel. -/
def timedTok (s e : ℤ) : Bool := s != 0 || e != 0

/-- Source: startTime = parent.start + (index * tokenDuration) with
tokenDuration = (parent.end - parent.start) / tokenCount, then Math.round. -/
def interpStart (ps pe : ℤ) (n i : ℕ) : ℤ :=
  jsRound ((ps : ℚ) + (i : ℚ) * (((pe : ℚ) - (ps : ℚ)) / (n : ℚ)))

/-- Source: endTime = parent.start + ((index + 1) * tokenDuration), rounded. -/
def interpEnd (ps pe : ℤ) (n i : ℕ) : ℤ :=
  jsRound ((ps : ℚ) + ((i : ℚ) + 1) * (((pe : ℚ) - (ps : ℚ)) / (n : ℚ)))

theorem interpStart_eval (ps pe : ℤ) (n i : ℕ) (hn : 0 < n) :
    interpStart ps pe n i = (2 * (n * ps + i * (pe - ps)) + n) / (2 * (n:ℤ)) := by
  have hn0 : ((n:ℚ)) ≠ 0 := by exact_mod_cast hn.ne'
  have key : (ps : ℚ) + (i : ℚ) * (((pe : ℚ) - (ps : ℚ)) / (n : ℚ)) + 1/2 =
      ((2 * (n * ps + i * (pe - ps)) + n : ℤ) : ℚ) / ((2 * n : ℕ) : ℚ) := by
    field_simp
    ring
  rw [interpStart, jsRound_def, key, Rat.floor_intCast_div_natCast]
  rfl

theorem interpEnd_eval (ps pe : ℤ) (n i : ℕ) (hn : 0 < n) :
    interpEnd ps pe n i = (2 * (n * ps + (i + 1) * (pe - ps)) + n) / (2 * (n:ℤ)) := by
  have hn0 : ((n:ℚ)) ≠ 0 := by exact_mod_cast hn.ne'
  have key : (ps : ℚ) + ((i : ℚ) + 1) * (((pe : ℚ) - (ps : ℚ)) / (n : ℚ)) + 1/2 =
      ((2 * (n * ps + (i + 1) * (pe - ps)) + n : ℤ) : ℚ) / ((2 * n : ℕ) : ℚ) := by
    field_simp
    ring
  rw [interpEnd, jsRound_def, key, Rat.floor_intCast_div_natCast]
  rfl

/-! ## Export cleanup: interpolation stages (cleanupTimingData, first pass)

The source walks each block, first redistributing partially timed lines over
the block span, then for each line redistributing partially timed words over
the line span, then for each word redistributing partially timed chars over
the word span.  An array none of whose members is timed is deleted at the
words and chars levels and kept unchanged at the lines level. -/

/-- Lines stage of one block of cleanupTimingData.  If some but not all lines
are timed, all lines are evenly redistributed over the block span. -/
def interpLinesArr (ps pe : ℤ) (pv : ℕ) (ls : List Line) : List Line :=
  let timedCount := (ls.filter fun l => timedTok l.start l.end_).length
  if timedCount = 0 then ls
  else if timedCount < ls.length then
    ls.mapIdx fun i l =>
      { l with start := interpStart ps pe ls.length i,
               end_ := interpEnd ps pe ls.length i,
               voice := jsOrV l.voice pv }
  else ls

/-- Words stage of one line: none deletes the array (delete line.words). -/
def interpWordsArr (ps pe : ℤ) (pv : ℕ) (ws : List Word) : Option (List Word) :=
  let timedCount := (ws.filter fun w => timedTok w.start w.end_).length
  if timedCount = 0 then none
  else if timedCount < ws.length then
    some (ws.mapIdx fun i w =>
      { w with start := interpStart ps pe ws.length i,
               end_ := interpEnd ps pe ws.length i,
               voice := jsOrV w.voice pv })
  else some ws

/-- Chars stage of one word: the inherited voice chain is
char.voice or word.voice or line.voice. -/
def interpCharsArr (ps pe : ℤ) (wv lv : ℕ) (cs : List CharTok) : Option (List CharTok) :=
  let timedCount := (cs.filter fun c => timedTok c.start c.end_).length
  if timedCount = 0 then none
  else if timedCount < cs.length then
    some (cs.mapIdx fun i c =>
      { c with start := interpStart ps pe cs.length i,
               end_ := interpEnd ps pe cs.length i,
               voice := jsOrV c.voice (jsOrV wv lv) })
  else some cs

/-- Chars stage applied to one word of a line with voice lv. -/
def interpChars (lv : ℕ) (w : Word) : Word :=
  match w.chars with
  | none => w
  | some cs => { w with chars := interpCharsArr w.start w.end_ w.voice lv cs }

/-- Words stage applied to one line. -/
def interpWords (l : Line) : Line :=
  match l.words with
  | none => l
  | some ws => { l with words := interpWordsArr l.start l.end_ l.voice ws }

/-- Per-line part of the cleanup pass: words stage, then chars stage on the
surviving words (the source guards the chars loop with if line.words). -/
def cleanupLine (l : Line) : Line :=
  let l1 := interpWords l
  match l1.words with
  | none => l1
  | some ws => { l1 with words := some (ws.map (interpChars l1.voice)) }

/-- Per-block part of the cleanup pass: lines stage first, then the per-line
words and chars stages on the redistributed lines. -/
def cleanupBlock (b : Block) : Block :=
  let ls := interpLinesArr b.start b.end_ b.voice b.lines
  { b with lines := ls.map cleanupLine }

/-- Interpolation pass of cleanupTimingData over the whole document. -/
def interpDoc (d : Doc) : Doc := { blocks := d.blocks.map cleanupBlock }

/-! ## Export cleanup: text clearing (cleanupTimingData, second pass) -/

/-- Clear word.text when the word has a nonempty chars array. -/
def clearWordText (w : Word) : Word :=
  match w.chars with
  | some cs => if 0 < cs.length then { w with text := "" } else w
  | none => w

/-- Clear line.text when the line has a nonempty words array, and clear the
texts of its words. -/
def clearLineText (l : Line) : Line :=
  let l1 := match l.words with
            | some ws => if 0 < ws.length then { l with text := "" } else l
            | none => l
  match l1.words with
  | some ws => { l1 with words := some (ws.map clearWordText) }
  | none => l1

/-- Clear block.text when the block has lines, and clear texts below it. -/
def clearBlockText (b : Block) : Block :=
  let b1 := if 0 < b.lines.length then { b with text := "" } else b
  { b1 with lines := b1.lines.map clearLineText }

def clearTextsDoc (d : Doc) : Doc := { blocks := d.blocks.map clearBlockText }

/-- cleanupTimingData: deep copy, interpolation walk, then text clearing. -/
def cleanupTimingData (d : Doc) : Doc := clearTextsDoc (interpDoc d)

/-! ## Bubble-up propagation (updateBlockTimingFromLines and friends)

After a timestamp is recorded at the lines, words or chars level, ancestor
bounds are recomputed from the timed children (those with start > 0 and
end > 0): the parent start becomes the minimum of the timed child starts and
the parent end the maximum of the timed child ends, but an already set bound
is only widened, never shrunk. -/

/-- The timed filter of the bubble-up functions: start > 0 and end > 0. -/
def timedPos (s e : ℤ) : Bool := decide (0 < s) && decide (0 < e)

/-- shouldUpdateStart: parent start falsy, zero, or greater than the
computed minimum. -/
def widenStart (old m : ℤ) : ℤ := if old = 0 ∨ m < old then m else old

/-- shouldUpdateEnd: parent end falsy, zero, or smaller than the maximum. -/
def widenEnd (old m : ℤ) : ℤ := if old = 0 ∨ old < m then m else old

/-- Math.min over a nonempty list, given as head and tail. -/
def listMin (x : ℤ) (xs : List ℤ) : ℤ := xs.foldl min x

/-- Math.max over a nonempty list, given as head and tail. -/
def listMax (x : ℤ) (xs : List ℤ) : ℤ := xs.foldl max x

/-- updateBlockTimingFromLines, body for one block. -/
def updateBlockFromLines (b : Block) : Block :=
  if b.lines.length = 0 then b
  else
    match b.lines.filter (fun l => timedPos l.start l.end_) with
    | [] => b
    | t :: ts =>
      { b with start := widenStart b.start (listMin t.start (ts.map Line.start)),
               end_ := widenEnd b.end_ (listMax t.end_ (ts.map Line.end_)) }

def updateBlockTimingFromLines (d : Doc) : Doc :=
  { blocks := d.blocks.map updateBlockFromLines }

/-- updateParentTimingFromWords, body for one line. -/
def updateLineFromWords (l : Line) : Line :=
  match l.words with
  | none => l
  | some ws =>
    if ws.length = 0 then l
    else
      match ws.filter (fun w => timedPos w.start w.end_) with
      | [] => l
      | t :: ts =>
        { l with start := widenStart l.start (listMin t.start (ts.map Word.start)),
                 end_ := widenEnd l.end_ (listMax t.end_ (ts.map Word.end_)) }

/-- updateParentTimingFromWords: widen each line from its timed words, then
run updateBlockTimingFromLines on the result. -/
def updateParentTimingFromWords (d : Doc) : Doc :=
  updateBlockTimingFromLines
    { blocks := d.blocks.map fun b => { b with lines := b.lines.map updateLineFromWords } }

/-- updateParentTimingFromChars, body for one word. -/
def updateWordFromChars (w : Word) : Word :=
  match w.chars with
  | none => w
  | some cs =>
    if cs.length = 0 then w
    else
      match cs.filter (fun c => timedPos c.start c.end_) with
      | [] => w
      | t :: ts =>
        { w with start := widenStart w.start (listMin t.start (ts.map CharTok.start)),
                 end_ := widenEnd w.end_ (listMax t.end_ (ts.map CharTok.end_)) }

/-- updateParentTimingFromChars: widen each word from its timed chars, then
run updateParentTimingFromWords on the result. -/
def updateParentTimingFromChars (d : Doc) : Doc :=
  updateParentTimingFromWords
    { blocks := d.blocks.map fun b =>
        { b with lines := b.lines.map fun l =>
            match l.words with
            | none => l
            | some ws => { l with words := some (ws.map updateWordFromChars) } } }

/-! ## Flattened token lists (getTokensByMode)

getTokensByMode flattens the document for the active recording mode.  Word
and char tokens fall back to splitting the line or word text when the words
or chars array is absent; fallback tokens carry no timing (undefined in the
source, none here). -/

inductive RecMode
  | blocks
  | lines
  | words
  | chars
deriving DecidableEq

/-- A flattened token as built by getTokensByMode: its display text, its
voice after the or-else chains of the source, and optional timing fields
(absent exactly for the fallback tokens built by splitting text). -/
structure ModeTok where
  text : String
  voice : ℕ
  start? : Option ℤ
  end_? : Option ℤ
deriving DecidableEq

/-- Splitting on single spaces keeping the separators, as the source regex
split on a captured single space followed by dropping empty strings: the
result is the maximal runs of non-space characters and one token per space. -/
def splitKeepSpacesGo (acc : List Char) : List Char → List String
  | [] => if acc.isEmpty then [] else [String.mk acc.reverse]
  | c :: cs =>
    if c = ' ' then
      (if acc.isEmpty then [] else [String.mk acc.reverse]) ++ " " :: splitKeepSpacesGo [] cs
    else splitKeepSpacesGo (c :: acc) cs

def splitKeepSpaces (s : String) : List String := splitKeepSpacesGo [] s.toList

def getTokensByMode (mode : RecMode) (d : Doc) : List ModeTok :=
  match mode with
  | .blocks =>
    d.blocks.map fun b =>
      { text := String.intercalate "\n" (b.lines.map Line.text),
        voice := b.voice, start? := some b.start, end_? := some b.end_ }
  | .lines =>
    d.blocks.flatMap fun b => b.lines.map fun l =>
      { text := l.text, voice := l.voice, start? := some l.start, end_? := some l.end_ }
  | .words =>
    d.blocks.flatMap fun b => b.lines.flatMap fun l =>
      match l.words with
      | some ws => ws.map fun w =>
          { text := w.text, voice := jsOrV w.voice l.voice,
            start? := some w.start, end_? := some w.end_ }
      | none => (splitKeepSpaces l.text).map fun t =>
          { text := t, voice := l.voice, start? := none, end_? := none }
  | .chars =>
    d.blocks.flatMap fun b => b.lines.flatMap fun l =>
      match l.words with
      | some ws => ws.flatMap fun w =>
          match w.chars with
          | some cs => cs.map fun c =>
              { text := c.text, voice := jsOrV c.voice (jsOrV w.voice l.voice),
                start? := some c.start, end_? := some c.end_ }
          | none => w.text.toList.map fun ch =>
              { text := String.mk [ch], voice := jsOrV w.voice l.voice,
                start? := none, end_? := none }
      | none => l.text.toList.map fun ch =>
          { text := String.mk [ch], voice := l.voice, start? := none, end_? := none }

/-- isSpaceToken: the token text is truthy (nonempty) and trims to the empty
string, i.e. the text is nonempty and all of its characters are whitespace. -/
def isSpaceToken (t : ModeTok) : Bool :=
  !t.text.isEmpty && t.text.toList.all Char.isWhitespace


/-! ## Mode completion and unlocking -/

/-- isModeCompleted: every token of the mode has start > 0 and end > 0.
The source calls .every directly on line.words and word.chars and would
throw when such an array is absent; this embedding reads an absent array as
empty, and the theorems below that depend on the words case only apply it to
documents whose words arrays are all present. -/
def isModeCompleted (d : Doc) (mode : RecMode) : Bool :=
  match mode with
  | .blocks => d.blocks.all fun b => decide (0 < b.start) && decide (0 < b.end_)
  | .lines => d.blocks.all fun b => b.lines.all fun l =>
      decide (0 < l.start) && decide (0 < l.end_)
  | .words => d.blocks.all fun b => b.lines.all fun l =>
      (l.words.getD []).all fun w => decide (0 < w.start) && decide (0 < w.end_)
  | .chars => d.blocks.all fun b => b.lines.all fun l =>
      (l.words.getD []).all fun w => (w.chars.getD []).all fun c =>
        decide (0 < c.start) && decide (0 < c.end_)

/-- isCurrentTokenRecorded: false when the active index is out of range,
otherwise the active token of the current mode has numeric timing with
start > 0 and end > 0. -/
def isCurrentTokenRecorded (d : Doc) (mode : RecMode) (idx : ℕ) : Bool :=
  match (getTokensByMode mode d)[idx]? with
  | none => false
  | some tok =>
    match tok.start?, tok.end_? with
    | some s, some e => decide (0 < s) && decide (0 < e)
    | _, _ => false

/-- getNextRecordingMode. -/
def getNextRecordingMode : RecMode → Option RecMode
  | .blocks => some .lines
  | .lines => some .words
  | .words => some .chars
  | .chars => none

/-- updateUnlockedModes: blocks and lines are always unlocked; the loop over
the inner modes unlocks words when lines is completed and chars when lines
and words are completed (it breaks at the first incomplete mode and never
consults blocks); the next mode of the current one is additionally unlocked
when the active token is recorded; finally the current mode itself is
ensured to be present. -/
def updateUnlockedModes (d : Doc) (mode : RecMode) (idx : ℕ) : List RecMode :=
  let base : List RecMode := [.blocks, .lines]
  let l1 := if isModeCompleted d .lines then base ++ [.words] else base
  let l2 := if isModeCompleted d .lines && isModeCompleted d .words then
              l1 ++ [.chars] else l1
  let l3 := match getNextRecordingMode mode with
            | some nm =>
              if isCurrentTokenRecorded d mode idx = true ∧ nm ∉ l2 then
                l2 ++ [nm] else l2
            | none => l2
  if mode ∈ l3 then l3 else l3 ++ [mode]

/-! ## recordTimestamp

recordTimestamp writes the rounded timestamp into the start or end field of
the active token of the current flattened mode list, stamps the current
voice on a start write, and then bubbles timing up to the ancestors.  The
source reads currentToken.text for a log line before checking any bounds, so
an out-of-range active index throws a TypeError, which the Except error
models; the switch bodies then guard the actual write with a length check on
the flattened array of the document (which can be shorter than the token
list in the fallback cases). -/

inductive TType
  | start
  | end_
deriving DecidableEq

/-- Write one timestamp field, and the voice on a start write. -/
def recBlock (ty : TType) (t : ℤ) (v : ℕ) (b : Block) : Block :=
  match ty with
  | .start => { b with start := t, voice := v }
  | .end_ => { b with end_ := t }

def recLine (ty : TType) (t : ℤ) (v : ℕ) (l : Line) : Line :=
  match ty with
  | .start => { l with start := t, voice := v }
  | .end_ => { l with end_ := t }

def recWord (ty : TType) (t : ℤ) (v : ℕ) (w : Word) : Word :=
  match ty with
  | .start => { w with start := t, voice := v }
  | .end_ => { w with end_ := t }

def recChar (ty : TType) (t : ℤ) (v : ℕ) (c : CharTok) : CharTok :=
  match ty with
  | .start => { c with start := t, voice := v }
  | .end_ => { c with end_ := t }

/-- Apply f to the element at the given position of a list. -/
def listModify (f : α → α) : ℕ → List α → List α
  | _, [] => []
  | 0, x :: xs => f x :: xs
  | n + 1, x :: xs => x :: listModify f n xs

/-- The lines of the document in flattened order. -/
def flatLines (d : Doc) : List Line := d.blocks.flatMap Block.lines

/-- The words of the document in flattened order (line.words or []). -/
def flatWords (d : Doc) : List Word :=
  d.blocks.flatMap fun b => b.lines.flatMap fun l => l.words.getD []

/-- The chars of the document in flattened order
(line.words ? flatMap of word.chars or [] : []). -/
def flatChars (d : Doc) : List CharTok :=
  d.blocks.flatMap fun b => b.lines.flatMap fun l =>
    match l.words with
    | some ws => ws.flatMap fun w => w.chars.getD []
    | none => []

/-- Modify the idx-th line of the document in flattened order. -/
def modifyFlatLine (f : Line → Line) (idx : ℕ) (d : Doc) : Doc :=
  { blocks := go idx d.blocks }
where
  go : ℕ → List Block → List Block
  | _, [] => []
  | i, b :: bs =>
    if i < b.lines.length then { b with lines := listModify f i b.lines } :: bs
    else b :: go (i - b.lines.length) bs

/-- Modify the idx-th word of the document in flattened order. -/
def modifyFlatWord (f : Word → Word) (idx : ℕ) (d : Doc) : Doc :=
  { blocks := go idx d.blocks }
where
  goLine (f : Word → Word) : ℕ → List Line → List Line
  | _, [] => []
  | i, l :: ls =>
    let n := (l.words.getD []).length
    if i < n then { l with words := some (listModify f i (l.words.getD [])) } :: ls
    else l :: goLine f (i - n) ls
  go : ℕ → List Block → List Block
  | _, [] => []
  | i, b :: bs =>
    let n := (b.lines.flatMap fun l => l.words.getD []).length
    if i < n then { b with lines := goLine f i b.lines } :: bs
    else b :: go (i - n) bs

/-- Modify the idx-th char of the document in flattened order. -/
def modifyFlatChar (f : CharTok → CharTok) (idx : ℕ) (d : Doc) : Doc :=
  { blocks := go idx d.blocks }
where
  goWord (f : CharTok → CharTok) : ℕ → List Word → List Word
  | _, [] => []
  | i, w :: ws =>
    let n := (w.chars.getD []).length
    if i < n then { w with chars := some (listModify f i (w.chars.getD [])) } :: ws
    else w :: goWord f (i - n) ws
  goLine (f : CharTok → CharTok) : ℕ → List Line → List Line
  | _, [] => []
  | i, l :: ls =>
    match l.words with
    | none => l :: goLine f i ls
    | some ws =>
      let n := (ws.flatMap fun w => w.chars.getD []).length
      if i < n then { l with words := some (goWord f i ws) } :: ls
      else l :: goLine f (i - n) ls
  go : ℕ → List Block → List Block
  | _, [] => []
  | i, b :: bs =>
    let n := (b.lines.flatMap fun l =>
      match l.words with
      | some ws => ws.flatMap fun w => w.chars.getD []
      | none => []).length
    if i < n then { b with lines := goLine f i b.lines } :: bs
    else b :: go (i - n) bs

/-- recordTimestamp.  The timestamp parameter is in seconds; the source
converts it with Math.round(timestamp * 1000). -/
def recordTimestamp (mode : RecMode) (idx : ℕ) (currentVoice : ℕ)
    (timestamp : ℚ) (ty : TType) (d : Doc) : Except String Doc :=
  let currentTime := jsRound (timestamp * 1000)
  let tokens := getTokensByMode mode d
  match tokens[idx]? with
  | none => .error "TypeError: cannot read properties of undefined"
  | some tok =>
    if isSpaceToken tok then .ok d
    else
      .ok (match mode with
        | .blocks =>
          if idx < d.blocks.length then
            { blocks := listModify (recBlock ty currentTime currentVoice) idx d.blocks }
          else d
        | .lines =>
          if idx < (flatLines d).length then
            updateBlockTimingFromLines
              (modifyFlatLine (recLine ty currentTime currentVoice) idx d)
          else d
        | .words =>
          if idx < (flatWords d).length then
            updateParentTimingFromWords
              (modifyFlatWord (recWord ty currentTime currentVoice) idx d)
          else d
        | .chars =>
          if idx < (flatChars d).length then
            updateParentTimingFromChars
              (modifyFlatChar (recChar ty currentTime currentVoice) idx d)
          else d)

/-! ## Sync-locked seeking (handleSeek, token lookup)

The scan walks the flattened token list in order.  A token with numeric
timing that contains the seek time is selected; otherwise, when the time
falls strictly between the end of the current token and the numeric start of
the immediately following array entry, that following entry is selected.  If
the scan finds nothing, the last token is selected when the time lies past
its numeric end, else the first token is selected when the time lies before
its numeric start, else nothing is selected. -/

/-- The gap lookahead: the next array entry exists, has a numeric start, and
the seek time is strictly below it. -/
def gapNext (t : ℚ) : List ModeTok → Bool
  | next :: _ =>
    match next.start? with
    | some s2 => decide (t < (s2 : ℚ))
    | none => false
  | [] => false

def seekScan (t : ℚ) : ℕ → List ModeTok → Option ℕ
  | _, [] => none
  | i, tok :: rest =>
    match tok.start?, tok.end_? with
    | some s, some e =>
      if decide ((s : ℚ) ≤ t) && decide (t ≤ (e : ℚ)) then some i
      else if decide ((e : ℚ) < t) && gapNext t rest then some (i + 1)
      else seekScan t (i + 1) rest
    | _, _ => seekScan t (i + 1) rest

def findTokenAtTime (tokens : List ModeTok) (t : ℚ) : Option ℕ :=
  match seekScan t 0 tokens with
  | some i => some i
  | none =>
    let r1 : Option ℕ :=
      match tokens.getLast? with
      | some last =>
        match last.end_? with
        | some e => if (e : ℚ) < t then some (tokens.length - 1) else none
        | none => none
      | none => none
    match r1 with
    | some j => some j
    | none =>
      match tokens.head? with
      | some first =>
        match first.start? with
        | some s => if t < (s : ℚ) then some 0 else none
        | none => none
      | none => none


/-! ## Whole-document interpolation stages, for the ordering claims

The fused per-block walk of cleanupTimingData is compared against separate
whole-document passes, one per granularity, applied in sequence. -/

def lineStageDoc (d : Doc) : Doc :=
  { blocks := d.blocks.map fun b =>
      { b with lines := interpLinesArr b.start b.end_ b.voice b.lines } }

def wordStageDoc (d : Doc) : Doc :=
  { blocks := d.blocks.map fun b => { b with lines := b.lines.map interpWords } }

def charStageDoc (d : Doc) : Doc :=
  { blocks := d.blocks.map fun b =>
      { b with lines := b.lines.map fun l =>
          match l.words with
          | none => l
          | some ws => { l with words := some (ws.map (interpChars l.voice)) } } }

/-- The cleanup pass in the order the specification describes: char-level
interpolation first, then word-level, then line-level, then text clearing.
This definition follows the specification wording and is compared against
cleanupTimingData, which is translated from the source. -/
def specBottomUpCleanup (d : Doc) : Doc :=
  clearTextsDoc (lineStageDoc (wordStageDoc (charStageDoc d)))

/-! ## Playback (LyricsPlaybackScreen)

generateLinearTiming walks blocks, lines and words in reading order and
requires those three arrays to be present, so the playback document model
makes them plain lists; the chars array of a word stays optional because it
is read through optional chaining by the timing probe and is overwritten by
the generator. -/

structure PChar where
  text : String
  start : ℤ
  end_ : ℤ
  voice : ℕ
  position : String
deriving DecidableEq

structure PWord where
  text : String
  start : ℤ
  end_ : ℤ
  voice : ℕ
  position : String
  chars : Option (List PChar)
deriving DecidableEq

structure PLine where
  text : String
  start : ℤ
  end_ : ℤ
  voice : ℕ
  position : String
  words : List PWord
deriving DecidableEq

structure PBlock where
  text : String
  start : ℤ
  end_ : ℤ
  voice : ℕ
  position : String
  lines : List PLine
deriving DecidableEq

structure PDoc where
  blocks : List PBlock
deriving DecidableEq

/-- Sum of the word text lengths of the document (totalChars). -/
def totalCharsP (d : PDoc) : ℕ :=
  d.blocks.foldl (fun sum b =>
    b.lines.foldl (fun lineSum l =>
      l.words.foldl (fun wordSum w => wordSum + w.text.length) lineSum) sum) 0

/-- One word of the generator: stamps the word with the rounded running time
and its rounded end, rebuilds its chars from the split text with cumulative
stamps, and advances the running time by the word duration. -/
def genWord (m : ℚ) (t : ℚ) (w : PWord) : PWord × ℚ :=
  let dur : ℚ := (w.text.length : ℚ) * m
  ({ w with
      start := jsRound t,
      end_ := jsRound (t + dur),
      chars := some (w.text.toList.mapIdx fun i c =>
        { text := String.mk [c],
          start := jsRound (t + (i : ℚ) * (dur / (w.text.length : ℚ))),
          end_ := jsRound (t + ((i : ℚ) + 1) * (dur / (w.text.length : ℚ))),
          voice := jsOrV w.voice 0,
          position := w.position }) },
   t + dur)

def genWords (m : ℚ) : ℚ → List PWord → List PWord × ℚ
  | t, [] => ([], t)
  | t, w :: ws =>
    let p := genWord m t w
    let q := genWords m p.2 ws
    (p.1 :: q.1, q.2)

def genLine (m : ℚ) (t : ℚ) (l : PLine) : PLine × ℚ :=
  let p := genWords m t l.words
  ({ l with words := p.1, start := jsRound t, end_ := jsRound p.2 }, p.2)

def genLines (m : ℚ) : ℚ → List PLine → List PLine × ℚ
  | t, [] => ([], t)
  | t, l :: ls =>
    let p := genLine m t l
    let q := genLines m p.2 ls
    (p.1 :: q.1, q.2)

def genBlock (m : ℚ) (t : ℚ) (b : PBlock) : PBlock × ℚ :=
  let p := genLines m t b.lines
  ({ b with lines := p.1, start := jsRound t, end_ := jsRound p.2 }, p.2)

def genBlocks (m : ℚ) : ℚ → List PBlock → List PBlock × ℚ
  | t, [] => ([], t)
  | t, b :: bs =>
    let p := genBlock m t b
    let q := genBlocks m p.2 bs
    (p.1 :: q.1, q.2)

/-- generateLinearTiming.  The duration parameter is the audio duration in
seconds; a falsy duration returns the document unchanged, as does a document
with zero total characters; otherwise every character receives
totalDurationMs / totalChars milliseconds, cumulatively in document order,
and word, line and block stamps are the rounded running times at their
boundaries. -/
def generateLinearTiming (durationS : ℚ) (d : PDoc) : PDoc :=
  if durationS = 0 then d
  else
    let totalDurationMs := durationS * 1000
    let totalChars := totalCharsP d
    if totalChars = 0 then d
    else
      let msPerChar := totalDurationMs / (totalChars : ℚ)
      { blocks := (genBlocks msPerChar 0 d.blocks).1 }

/-- The timing probe of processedLyricsJson: some token somewhere has
start > 0 or end > 0.  The chars array is read through optional chaining. -/
def hasTimingData (d : PDoc) : Bool :=
  d.blocks.any fun b =>
    decide (0 < b.start) || decide (0 < b.end_) ||
    (b.lines.any fun l =>
      decide (0 < l.start) || decide (0 < l.end_) ||
      (l.words.any fun w =>
        decide (0 < w.start) || decide (0 < w.end_) ||
        ((w.chars.getD []).any fun c => decide (0 < c.start) || decide (0 < c.end_))))

/-- processedLyricsJson: keep the document when it has timing data, else
generate linear timing on a copy. -/
def processedLyricsJson (durationS : ℚ) (d : PDoc) : PDoc :=
  if hasTimingData d then d else generateLinearTiming durationS d

/-- getTokenProgress for a token with numeric timing, at a playback time in
milliseconds.  When start equals end the progress jumps from 0 to 100 at
start; otherwise it is 0 before start, 100 from end on, and the clamped
linear fraction in between. -/
def getTokenProgress (s e : ℤ) (tms : ℚ) : ℚ :=
  if s = e then (if (s : ℚ) ≤ tms then 100 else 0)
  else if tms < (s : ℚ) then 0
  else if (e : ℚ) ≤ tms then 100
  else max 0 (min 100 ((tms - (s : ℚ)) / ((e : ℚ) - (s : ℚ)) * 100))

/-- All generated char tokens of a playback document in document order. -/
def allCharsP (d : PDoc) : List PChar :=
  d.blocks.flatMap fun b => b.lines.flatMap fun l =>
    l.words.flatMap fun w => w.chars.getD []


/-! ## C7: per-token progress -/

/-- C7: for every token with numeric start and end and every time t, the
progress is 0 when t is before start and 100 from end on; between the two it
is the linear fraction (t - start) / (end - start) times 100, clamped to the
interval from 0 to 100; in the degenerate case start = end it is 100 once t
reaches start and 0 before; consequently, for start < end the progress is 0
at start, 100 at end, and strictly increasing on the open interval. -/
theorem c7_token_progress (s e : ℤ) (t : ℚ) :
    (t < (s : ℚ) → getTokenProgress s e t = 0) ∧
    ((e : ℚ) ≤ t → (s : ℚ) ≤ t → getTokenProgress s e t = 100) ∧
    ((s : ℚ) ≤ t → t < (e : ℚ) →
      getTokenProgress s e t = max 0 (min 100 ((t - s) / ((e : ℚ) - s) * 100))) ∧
    (s = e → getTokenProgress s e t = if (s : ℚ) ≤ t then 100 else 0) ∧
    (s < e → getTokenProgress s e (s : ℚ) = 0 ∧ getTokenProgress s e (e : ℚ) = 100) ∧
    (s < e → ∀ t1 t2 : ℚ, (s : ℚ) < t1 → t1 < t2 → t2 < (e : ℚ) →
      getTokenProgress s e t1 < getTokenProgress s e t2) := by
  have hprog : ∀ u : ℚ, (s : ℚ) < u → u < (e : ℚ) →
      getTokenProgress s e u = (u - s) / ((e : ℚ) - s) * 100 := by
    intro u hu1 hu2
    have hes : (0 : ℚ) < (e : ℚ) - s := by linarith
    have hne : s ≠ e := by
      intro h
      rw [h] at hu1
      exact absurd (hu1.trans hu2) (lt_irrefl _)
    have hb1 : (0:ℚ) < (u - s) / ((e : ℚ) - s) * 100 := by
      have := div_pos (show (0:ℚ) < u - s by linarith) hes
      nlinarith
    have hb2 : (u - s) / ((e : ℚ) - s) * 100 < 100 := by
      have : (u - s) / ((e : ℚ) - s) < 1 := (div_lt_one hes).mpr (by linarith)
      nlinarith
    unfold getTokenProgress
    rw [if_neg hne, if_neg (not_lt.mpr hu1.le), if_neg (not_le.mpr hu2),
      min_eq_right hb2.le, max_eq_right hb1.le]
  refine ⟨?_, ?_, ?_, ?_, ?_, ?_⟩
  · intro h
    by_cases hse : s = e
    · unfold getTokenProgress
      rw [if_pos hse, if_neg (not_le.mpr h)]
    · unfold getTokenProgress
      rw [if_neg hse, if_pos h]
  · intro he hs
    by_cases hse : s = e
    · unfold getTokenProgress
      rw [if_pos hse, if_pos hs]
    · unfold getTokenProgress
      rw [if_neg hse, if_neg (not_lt.mpr hs), if_pos he]
  · intro hs hte
    have hne : s ≠ e := by
      intro h
      rw [h] at hs
      exact absurd (lt_of_le_of_lt hs hte) (lt_irrefl _)
    unfold getTokenProgress
    rw [if_neg hne, if_neg (not_lt.mpr hs), if_neg (not_le.mpr hte)]
  · intro h
    unfold getTokenProgress
    rw [if_pos h]
  · intro hse
    have hne : s ≠ e := by omega
    have hse2 : (s : ℚ) < (e : ℚ) := by exact_mod_cast hse
    constructor
    · unfold getTokenProgress
      rw [if_neg hne, if_neg (lt_irrefl _), if_neg (not_le.mpr hse2)]
      simp
    · unfold getTokenProgress
      rw [if_neg hne, if_neg (not_lt.mpr hse2.le), if_pos le_rfl]
  · intro hse t1 t2 h1 h2 h3
    rw [hprog t1 h1 (h2.trans h3), hprog t2 (h1.trans h2) h3]
    have hse2 : (s : ℚ) < (e : ℚ) := by exact_mod_cast hse
    have hes : (0 : ℚ) < (e : ℚ) - s := by linarith
    have hdiv : (t1 - s) / ((e : ℚ) - s) < (t2 - s) / ((e : ℚ) - s) :=
      (div_lt_div_iff_of_pos_right hes).mpr (by linarith)
    nlinarith

/-- C7 witness: the theorem applied at the token from 0 to 10 milliseconds
and time 4. -/
theorem c7_token_progress_witness :
    getTokenProgress 0 10 0 = 0 ∧ getTokenProgress 0 10 10 = 100 ∧
    getTokenProgress 0 10 4 < getTokenProgress 0 10 6 := by
  refine ⟨((c7_token_progress 0 10 4).2.2.2.2.1 (by norm_num)).1, ?_, ?_⟩
  · exact ((c7_token_progress 0 10 4).2.2.2.2.1 (by norm_num)).2
  · exact (c7_token_progress 0 10 0).2.2.2.2.2 (by norm_num) 4 6 (by norm_num)
      (by norm_num) (by norm_num)

/-! ## C8: recording with an out-of-range active index -/

/-- C8: when the active token index is out of range for the flattened token
list of the current mode (in particular whenever the mode has zero tokens),
recordTimestamp dereferences the missing token for its log line and throws a
TypeError instead of ignoring the call: the modelled call reports an error
rather than returning the document unchanged. -/
theorem c8_record_out_of_range_throws (mode : RecMode) (idx : ℕ) (v : ℕ)
    (ts : ℚ) (ty : TType) (d : Doc) (h : (getTokensByMode mode d).length ≤ idx) :
    recordTimestamp mode idx v ts ty d =
      .error "TypeError: cannot read properties of undefined" := by
  simp [recordTimestamp, List.getElem?_eq_none h]

/-- C8 witness: recording a start timestamp in blocks mode on a document
with no blocks throws. -/
theorem c8_record_out_of_range_throws_witness :
    recordTimestamp .blocks 0 1 5 .start { blocks := [] } =
      .error "TypeError: cannot read properties of undefined" :=
  c8_record_out_of_range_throws .blocks 0 1 5 .start { blocks := [] } (by decide)

/-! ## C5: time to token lookup -/

/-- The scan position i holds a token with numeric timing containing t. -/
def containsAt (tokens : List ModeTok) (t : ℚ) (i : ℕ) : Prop :=
  ∃ (tok : ModeTok) (s e : ℤ), tokens[i]? = some tok ∧ tok.start? = some s ∧
    tok.end_? = some e ∧ (s : ℚ) ≤ t ∧ t ≤ (e : ℚ)

/-- The scan position i holds a token with numeric timing whose end lies
strictly before t, while the immediately following array entry has a numeric
start strictly after t. -/
def gapAt (tokens : List ModeTok) (t : ℚ) (i : ℕ) : Prop :=
  ∃ (tok : ModeTok) (s e : ℤ) (next : ModeTok) (s2 : ℤ), tokens[i]? = some tok ∧
    tok.start? = some s ∧ tok.end_? = some e ∧ tokens[i + 1]? = some next ∧
    next.start? = some s2 ∧ (e : ℚ) < t ∧ t < (s2 : ℚ)

def hitAt (tokens : List ModeTok) (t : ℚ) (i : ℕ) : Prop :=
  containsAt tokens t i ∨ gapAt tokens t i

/-- The last array token has a numeric end strictly before t. -/
def pastLastAt (tokens : List ModeTok) (t : ℚ) : Prop :=
  ∃ (last : ModeTok) (e : ℤ), tokens.getLast? = some last ∧ last.end_? = some e ∧
    (e : ℚ) < t

/-- The first array token has a numeric start strictly after t. -/
def beforeFirstAt (tokens : List ModeTok) (t : ℚ) : Prop :=
  ∃ (first : ModeTok) (s : ℤ), tokens.head? = some first ∧ first.start? = some s ∧
    t < (s : ℚ)

theorem containsAt_cons_succ (tok : ModeTok) (rest : List ModeTok) (t : ℚ) (k : ℕ) :
    containsAt (tok :: rest) t (k + 1) ↔ containsAt rest t k := by
  simp [containsAt]

theorem gapAt_cons_succ (tok : ModeTok) (rest : List ModeTok) (t : ℚ) (k : ℕ) :
    gapAt (tok :: rest) t (k + 1) ↔ gapAt rest t k := by
  simp [gapAt]

theorem hitAt_cons_succ (tok : ModeTok) (rest : List ModeTok) (t : ℚ) (k : ℕ) :
    hitAt (tok :: rest) t (k + 1) ↔ hitAt rest t k := by
  rw [hitAt, hitAt, containsAt_cons_succ, gapAt_cons_succ]

theorem gapNext_iff (t : ℚ) (rest : List ModeTok) :
    gapNext t rest = true ↔
      ∃ (next : ModeTok) (s2 : ℤ), rest[0]? = some next ∧ next.start? = some s2 ∧
        t < (s2 : ℚ) := by
  cases rest with
  | nil => simp [gapNext]
  | cons next rest2 =>
    cases hs : next.start? with
    | none => simp [gapNext, hs]
    | some s2 => simp [gapNext, hs]

theorem seekScan_eq_some_iff (t : ℚ) :
    ∀ (toks : List ModeTok) (i j : ℕ),
      seekScan t i toks = some j ↔
        ∃ k, (∀ k2, k2 < k → ¬ hitAt toks t k2) ∧
          ((containsAt toks t k ∧ j = i + k) ∨
           (¬ containsAt toks t k ∧ gapAt toks t k ∧ j = i + k + 1)) := by
  intro toks
  induction toks with
  | nil =>
    intro i j
    simp [seekScan, containsAt, gapAt]
  | cons tok rest ih =>
    intro i j
    have hshift : (seekScan t (i + 1) rest = some j ↔
        ∃ k, (∀ k2, k2 < k → ¬ hitAt rest t k2) ∧
          ((containsAt rest t k ∧ j = (i + 1) + k) ∨
           (¬ containsAt rest t k ∧ gapAt rest t k ∧ j = (i + 1) + k + 1))) := ih (i + 1) j
    cases hss : tok.start? with
    | none =>
      have hnc0 : ¬ containsAt (tok :: rest) t 0 := by
        simp [containsAt, hss]
      have hng0 : ¬ gapAt (tok :: rest) t 0 := by
        simp [gapAt, hss]
      have hlhs : seekScan t i (tok :: rest) = seekScan t (i + 1) rest := by
        simp [seekScan, hss]
      rw [hlhs, hshift]
      constructor
      · rintro ⟨k, hfree, hk⟩
        refine ⟨k + 1, ?_, ?_⟩
        · intro k2 hk2
          cases k2 with
          | zero => exact fun h => h.elim hnc0 hng0
          | succ k3 =>
            rw [hitAt_cons_succ]
            exact hfree k3 (by omega)
        · rw [containsAt_cons_succ, gapAt_cons_succ]
          rcases hk with ⟨h1, h2⟩ | ⟨h1, h2, h3⟩
          · exact Or.inl ⟨h1, by omega⟩
          · exact Or.inr ⟨h1, h2, by omega⟩
      · rintro ⟨k, hfree, hk⟩
        cases k with
        | zero =>
          rcases hk with ⟨h1, _⟩ | ⟨_, h2, _⟩
          · exact absurd h1 hnc0
          · exact absurd h2 hng0
        | succ k3 =>
          refine ⟨k3, ?_, ?_⟩
          · intro k2 hk2
            have := hfree (k2 + 1) (by omega)
            rw [hitAt_cons_succ] at this
            exact this
          · rw [containsAt_cons_succ, gapAt_cons_succ] at hk
            rcases hk with ⟨h1, h2⟩ | ⟨h1, h2, h3⟩
            · exact Or.inl ⟨h1, by omega⟩
            · exact Or.inr ⟨h1, h2, by omega⟩
    | some s =>
      cases hse : tok.end_? with
      | none =>
        have hnc0 : ¬ containsAt (tok :: rest) t 0 := by
          simp [containsAt, hss, hse]
        have hng0 : ¬ gapAt (tok :: rest) t 0 := by
          simp [gapAt, hss, hse]
        have hlhs : seekScan t i (tok :: rest) = seekScan t (i + 1) rest := by
          simp [seekScan, hss, hse]
        rw [hlhs, hshift]
        constructor
        · rintro ⟨k, hfree, hk⟩
          refine ⟨k + 1, ?_, ?_⟩
          · intro k2 hk2
            cases k2 with
            | zero => exact fun h => h.elim hnc0 hng0
            | succ k3 =>
              rw [hitAt_cons_succ]
              exact hfree k3 (by omega)
          · rw [containsAt_cons_succ, gapAt_cons_succ]
            rcases hk with ⟨h1, h2⟩ | ⟨h1, h2, h3⟩
            · exact Or.inl ⟨h1, by omega⟩
            · exact Or.inr ⟨h1, h2, by omega⟩
        · rintro ⟨k, hfree, hk⟩
          cases k with
          | zero =>
            rcases hk with ⟨h1, _⟩ | ⟨_, h2, _⟩
            · exact absurd h1 hnc0
            · exact absurd h2 hng0
          | succ k3 =>
            refine ⟨k3, ?_, ?_⟩
            · intro k2 hk2
              have := hfree (k2 + 1) (by omega)
              rw [hitAt_cons_succ] at this
              exact this
            · rw [containsAt_cons_succ, gapAt_cons_succ] at hk
              rcases hk with ⟨h1, h2⟩ | ⟨h1, h2, h3⟩
              · exact Or.inl ⟨h1, by omega⟩
              · exact Or.inr ⟨h1, h2, by omega⟩
      | some e =>
        have hcont0 : containsAt (tok :: rest) t 0 ↔ ((s : ℚ) ≤ t ∧ t ≤ (e : ℚ)) := by
          simp [containsAt, hss, hse]
        have hgap0 : gapAt (tok :: rest) t 0 ↔
            ((e : ℚ) < t ∧ gapNext t rest = true) := by
          rw [gapNext_iff]
          simp only [gapAt, hss, hse]
          constructor
          · rintro ⟨tok2, s2, e2, next, s3, h1, h2, h3, h4, h5, h6, h7⟩
            simp only [List.getElem?_cons_zero, Option.some.injEq] at h1
            simp only [List.getElem?_cons_succ] at h4
            subst h1
            rw [hss] at h2
            rw [hse] at h3
            cases h2
            cases h3
            exact ⟨h6, next, s3, h4, h5, h7⟩
          · rintro ⟨h6, next, s3, h4, h5, h7⟩
            exact ⟨tok, s, e, next, s3, by simp, hss, hse, by simpa using h4, h5, h6, h7⟩
        by_cases hc1 : (s : ℚ) ≤ t ∧ t ≤ (e : ℚ)
        · have hlhs : seekScan t i (tok :: rest) = some i := by
            simp [seekScan, hss, hse, hc1.1, hc1.2]
          rw [hlhs]
          constructor
          · intro h
            have hj : j = i := by
              simpa using h.symm
            exact ⟨0, by omega, Or.inl ⟨hcont0.mpr hc1, by omega⟩⟩
          · rintro ⟨k, hfree, hk⟩
            cases k with
            | zero =>
              rcases hk with ⟨_, h2⟩ | ⟨h1, _, _⟩
              · simp [h2]
              · exact absurd (hcont0.mpr hc1) h1
            | succ k3 =>
              exact absurd (Or.inl (hcont0.mpr hc1)) (hfree 0 (by omega))
        · by_cases hc2 : (e : ℚ) < t ∧ gapNext t rest = true
          · have hlhs : seekScan t i (tok :: rest) = some (i + 1) := by
              have hno : ¬ ((s : ℚ) ≤ t ∧ t ≤ (e : ℚ)) := hc1
              simp only [seekScan, hss, hse]
              rw [if_neg, if_pos]
              · simp [hc2.1, hc2.2]
              · simp only [Bool.and_eq_true, decide_eq_true_eq]
                exact fun h => hno h
            rw [hlhs]
            constructor
            · intro h
              have hj : j = i + 1 := by
                simpa using h.symm
              refine ⟨0, by omega, Or.inr ⟨?_, hgap0.mpr hc2, by omega⟩⟩
              rw [hcont0]
              exact hc1
            · rintro ⟨k, hfree, hk⟩
              cases k with
              | zero =>
                rcases hk with ⟨h1, _⟩ | ⟨_, _, h3⟩
                · exact absurd (hcont0.mp h1) hc1
                · simp [h3]
              | succ k3 =>
                exact absurd (Or.inr (hgap0.mpr hc2)) (hfree 0 (by omega))
          · have hnc0 : ¬ containsAt (tok :: rest) t 0 := fun h => hc1 (hcont0.mp h)
            have hng0 : ¬ gapAt (tok :: rest) t 0 := fun h => hc2 (hgap0.mp h)
            have hlhs : seekScan t i (tok :: rest) = seekScan t (i + 1) rest := by
              simp only [seekScan, hss, hse]
              rw [if_neg, if_neg]
              · simp only [Bool.and_eq_true, decide_eq_true_eq]
                exact fun h => hc2 ⟨h.1, h.2⟩
              · simp only [Bool.and_eq_true, decide_eq_true_eq]
                exact fun h => hc1 h
            rw [hlhs, hshift]
            constructor
            · rintro ⟨k, hfree, hk⟩
              refine ⟨k + 1, ?_, ?_⟩
              · intro k2 hk2
                cases k2 with
                | zero => exact fun h => h.elim hnc0 hng0
                | succ k3 =>
                  rw [hitAt_cons_succ]
                  exact hfree k3 (by omega)
              · rw [containsAt_cons_succ, gapAt_cons_succ]
                rcases hk with ⟨h1, h2⟩ | ⟨h1, h2, h3⟩
                · exact Or.inl ⟨h1, by omega⟩
                · exact Or.inr ⟨h1, h2, by omega⟩
            · rintro ⟨k, hfree, hk⟩
              cases k with
              | zero =>
                rcases hk with ⟨h1, _⟩ | ⟨_, h2, _⟩
                · exact absurd h1 hnc0
                · exact absurd h2 hng0
              | succ k3 =>
                refine ⟨k3, ?_, ?_⟩
                · intro k2 hk2
                  have := hfree (k2 + 1) (by omega)
                  rw [hitAt_cons_succ] at this
                  exact this
                · rw [containsAt_cons_succ, gapAt_cons_succ] at hk
                  rcases hk with ⟨h1, h2⟩ | ⟨h1, h2, h3⟩
                  · exact Or.inl ⟨h1, by omega⟩
                  · exact Or.inr ⟨h1, h2, by omega⟩

theorem seekScan_eq_none_iff (t : ℚ) :
    ∀ (toks : List ModeTok) (i : ℕ),
      seekScan t i toks = none ↔ ∀ k, ¬ hitAt toks t k := by
  intro toks i
  cases hscan : seekScan t i toks with
  | some j =>
    simp only [reduceCtorEq, false_iff, not_forall, not_not]
    obtain ⟨k, hfree, hk⟩ := (seekScan_eq_some_iff t toks i j).mp hscan
    rcases hk with ⟨h1, _⟩ | ⟨_, h2, _⟩
    · exact ⟨k, Or.inl h1⟩
    · exact ⟨k, Or.inr h2⟩
  | none =>
    simp only [true_iff]
    intro k hk
    have hex : ∃ k0, hitAt toks t k0 ∧ ∀ k2, k2 < k0 → ¬ hitAt toks t k2 := by
      by_contra hno
      push_neg at hno
      have : ∀ n k0, k0 ≤ n → ¬ hitAt toks t k0 := by
        intro n
        induction n with
        | zero =>
          intro k0 hk0 hhit
          interval_cases k0
          obtain ⟨k2, hk2, hh2⟩ := hno 0 hhit
          omega
        | succ n ihn =>
          intro k0 hk0 hhit
          rcases Nat.lt_or_ge k0 (n + 1) with hlt | hge
          · exact ihn k0 (by omega) hhit
          · obtain ⟨k2, hk2, hh2⟩ := hno k0 hhit
            exact ihn k2 (by omega) hh2
      exact this k k le_rfl hk
    obtain ⟨k0, hh, hfree⟩ := hex
    rcases hh with hc | hg
    · have : seekScan t i toks = some (i + k0) :=
        (seekScan_eq_some_iff t toks i (i + k0)).mpr ⟨k0, hfree, Or.inl ⟨hc, rfl⟩⟩
      rw [hscan] at this
      cases this
    · by_cases hc0 : containsAt toks t k0
      · have : seekScan t i toks = some (i + k0) :=
          (seekScan_eq_some_iff t toks i (i + k0)).mpr ⟨k0, hfree, Or.inl ⟨hc0, rfl⟩⟩
        rw [hscan] at this
        cases this
      · have : seekScan t i toks = some (i + k0 + 1) :=
          (seekScan_eq_some_iff t toks i (i + k0 + 1)).mpr
            ⟨k0, hfree, Or.inr ⟨hc0, hg, rfl⟩⟩
        rw [hscan] at this
        cases this

/-- C5 (amended): the selected index is characterised by the scan rules of
handleSeek.  The scan picks the earliest position whose token has numeric
timing and either contains t (selecting that position) or ends strictly
before a t that lies strictly before the numeric start of the next array
entry (selecting the following position); when no position fires, the last
token is selected if its numeric end lies strictly before t, else the first
token is selected if its numeric start lies strictly after t, else no token
is selected.  Tokens without numeric timing are skipped, and the two
fallbacks require the last, respectively first, array token itself to carry
the compared field. -/
theorem c5_seek_characterization (tokens : List ModeTok) (t : ℚ) (j : ℕ) :
    findTokenAtTime tokens t = some j ↔
      (∃ k, (∀ k2, k2 < k → ¬ hitAt tokens t k2) ∧
        ((containsAt tokens t k ∧ j = k) ∨
         (¬ containsAt tokens t k ∧ gapAt tokens t k ∧ j = k + 1))) ∨
      ((∀ k, ¬ hitAt tokens t k) ∧ pastLastAt tokens t ∧ j = tokens.length - 1) ∨
      ((∀ k, ¬ hitAt tokens t k) ∧ ¬ pastLastAt tokens t ∧ beforeFirstAt tokens t ∧
        j = 0) := by
  unfold findTokenAtTime
  cases hscan : seekScan t 0 tokens with
  | some i =>
    have hchar := (seekScan_eq_some_iff t tokens 0 i).mp hscan
    obtain ⟨k, hfree, hk⟩ := hchar
    have hhit : hitAt tokens t k := by
      rcases hk with ⟨h1, _⟩ | ⟨_, h2, _⟩
      · exact Or.inl h1
      · exact Or.inr h2
    constructor
    · intro hj
      have hji : j = i := by
        simpa using hj.symm
      subst hji
      rcases hk with ⟨h1, h2⟩ | ⟨h1, h2, h3⟩
      · exact Or.inl ⟨k, hfree, Or.inl ⟨h1, by omega⟩⟩
      · exact Or.inl ⟨k, hfree, Or.inr ⟨h1, h2, by omega⟩⟩
    · rintro (⟨k2, hfree2, hk2⟩ | ⟨hnone, _, _⟩ | ⟨hnone, _, _, _⟩)
      · have hkk : k2 = k := by
          by_contra hne
          rcases Nat.lt_or_ge k2 k with hlt | hge
          · have hhit2 : hitAt tokens t k2 := by
              rcases hk2 with ⟨h1, _⟩ | ⟨_, h2, _⟩
              · exact Or.inl h1
              · exact Or.inr h2
            exact hfree k2 hlt hhit2
          · exact hfree2 k (by omega) hhit
        subst hkk
        rcases hk with ⟨h1, h2⟩ | ⟨h1, h2, h3⟩
        · rcases hk2 with ⟨h1b, h2b⟩ | ⟨h1b, _, _⟩
          · simp [h2b, h2]
          · exact absurd h1 h1b
        · rcases hk2 with ⟨h1b, _⟩ | ⟨_, h2b, h3b⟩
          · exact absurd h1b h1
          · simp [h3b, h3]
      · exact absurd hhit (hnone k)
      · exact absurd hhit (hnone k)
  | none =>
    have hnone : ∀ k, ¬ hitAt tokens t k := (seekScan_eq_none_iff t tokens 0).mp hscan
    have hnd1 : ¬ (∃ k, (∀ k2, k2 < k → ¬ hitAt tokens t k2) ∧
        ((containsAt tokens t k ∧ j = k) ∨
         (¬ containsAt tokens t k ∧ gapAt tokens t k ∧ j = k + 1))) := by
      rintro ⟨k, _, hk⟩
      rcases hk with ⟨h1, _⟩ | ⟨_, h2, _⟩
      · exact hnone k (Or.inl h1)
      · exact hnone k (Or.inr h2)
    cases hlast : tokens.getLast? with
    | none =>
      have hnil : tokens = [] := List.getLast?_eq_none_iff.mp hlast
      subst hnil
      constructor
      · intro h
        simp at h
      · rintro (h1 | ⟨_, ⟨l2, e2, hl2, _, _⟩, _⟩ | ⟨_, _, ⟨f2, s2, hf2, _, _⟩, _⟩)
        · exact absurd h1 hnd1
        · cases hl2
        · cases hf2
    | some last =>
      cases hle : last.end_? with
      | none =>
        have hnpl : ¬ pastLastAt tokens t := by
          rintro ⟨last2, e2, h1, h2, h3⟩
          rw [hlast] at h1
          cases h1
          rw [hle] at h2
          cases h2
        cases hhead : tokens.head? with
        | none =>
          have hnil : tokens = [] := List.head?_eq_none_iff.mp hhead
          rw [hnil] at hlast
          cases hlast
        | some first =>
          cases hfs : first.start? with
          | none =>
            have hnbf : ¬ beforeFirstAt tokens t := by
              rintro ⟨f2, s2, h1, h2, h3⟩
              rw [hhead] at h1
              cases h1
              rw [hfs] at h2
              cases h2
            simp only [hlast, hle, hhead, hfs]
            constructor
            · intro h
              exact Option.noConfusion h
            · rintro (h1 | ⟨_, hpl2, _⟩ | ⟨_, _, hbf2, _⟩)
              · exact absurd h1 hnd1
              · exact absurd hpl2 hnpl
              · exact absurd hbf2 hnbf
          | some sF =>
            by_cases hts : t < (sF : ℚ)
            · have hbf : beforeFirstAt tokens t := ⟨first, sF, hhead, hfs, hts⟩
              simp only [hlast, hle, hhead, hfs]
              rw [if_pos hts]
              constructor
              · intro h
                have hj : (0 : ℕ) = j := Option.some.inj h
                exact Or.inr (Or.inr ⟨hnone, hnpl, hbf, hj.symm⟩)
              · rintro (h1 | ⟨_, hpl2, _⟩ | ⟨_, _, _, hj⟩)
                · exact absurd h1 hnd1
                · exact absurd hpl2 hnpl
                · rw [hj]
            · have hnbf : ¬ beforeFirstAt tokens t := by
                rintro ⟨f2, s2, h1, h2, h3⟩
                rw [hhead] at h1
                cases h1
                rw [hfs] at h2
                cases h2
                exact hts h3
              simp only [hlast, hle, hhead, hfs]
              rw [if_neg hts]
              constructor
              · intro h
                exact Option.noConfusion h
              · rintro (h1 | ⟨_, hpl2, _⟩ | ⟨_, _, hbf2, _⟩)
                · exact absurd h1 hnd1
                · exact absurd hpl2 hnpl
                · exact absurd hbf2 hnbf
      | some eL =>
        by_cases hte : (eL : ℚ) < t
        · have hpl : pastLastAt tokens t := ⟨last, eL, hlast, hle, hte⟩
          simp only [hlast, hle]
          rw [if_pos hte]
          constructor
          · intro h
            have hj : tokens.length - 1 = j := Option.some.inj h
            exact Or.inr (Or.inl ⟨hnone, hpl, hj.symm⟩)
          · rintro (h1 | ⟨_, _, hj⟩ | ⟨_, hnpl2, _, _⟩)
            · exact absurd h1 hnd1
            · rw [hj]
            · exact absurd hpl hnpl2
        · have hnpl : ¬ pastLastAt tokens t := by
            rintro ⟨last2, e2, h1, h2, h3⟩
            rw [hlast] at h1
            cases h1
            rw [hle] at h2
            cases h2
            exact hte h3
          cases hhead : tokens.head? with
          | none =>
            have hnil : tokens = [] := List.head?_eq_none_iff.mp hhead
            rw [hnil] at hlast
            cases hlast
          | some first =>
            cases hfs : first.start? with
            | none =>
              have hnbf : ¬ beforeFirstAt tokens t := by
                rintro ⟨f2, s2, h1, h2, h3⟩
                rw [hhead] at h1
                cases h1
                rw [hfs] at h2
                cases h2
              simp only [hlast, hle, hhead, hfs]
              rw [if_neg hte]
              constructor
              · intro h
                exact Option.noConfusion h
              · rintro (h1 | ⟨_, hpl2, _⟩ | ⟨_, _, hbf2, _⟩)
                · exact absurd h1 hnd1
                · exact absurd hpl2 hnpl
                · exact absurd hbf2 hnbf
            | some sF =>
              by_cases hts : t < (sF : ℚ)
              · have hbf : beforeFirstAt tokens t := ⟨first, sF, hhead, hfs, hts⟩
                simp only [hlast, hle, hhead, hfs]
                rw [if_neg hte, if_pos hts]
                constructor
                · intro h
                  have hj : (0 : ℕ) = j := Option.some.inj h
                  exact Or.inr (Or.inr ⟨hnone, hnpl, hbf, hj.symm⟩)
                · rintro (h1 | ⟨_, hpl2, _⟩ | ⟨_, _, _, hj⟩)
                  · exact absurd h1 hnd1
                  · exact absurd hpl2 hnpl
                  · rw [hj]
              · have hnbf : ¬ beforeFirstAt tokens t := by
                  rintro ⟨f2, s2, h1, h2, h3⟩
                  rw [hhead] at h1
                  cases h1
                  rw [hfs] at h2
                  cases h2
                  exact hts h3
                simp only [hlast, hle, hhead, hfs]
                rw [if_neg hte, if_neg hts]
                constructor
                · intro h
                  exact Option.noConfusion h
                · rintro (h1 | ⟨_, hpl2, _⟩ | ⟨_, _, hbf2, _⟩)
                  · exact absurd h1 hnd1
                  · exact absurd hpl2 hnpl
                  · exact absurd hbf2 hnbf

/-- C5 counterexample: in the list whose first token carries no numeric
timing and whose second token spans 100 to 200, the seek time 50 precedes
the first timed token of a nonempty list, yet the lookup selects nothing at
all, because the before-first fallback reads the start of the first array
token, which is not numeric.  The claim, which promises that the first token
is selected, therefore fails on this input. -/
theorem c5_counterexample :
    findTokenAtTime
      [{ text := "u", voice := 0, start? := none, end_? := none },
       { text := "a", voice := 1, start? := some 100, end_? := some 200 }] 50 = none ∧
    ([{ text := "u", voice := 0, start? := none, end_? := none },
      { text := "a", voice := 1, start? := some 100, end_? := some 200 }] :
        List ModeTok).length = 2 ∧
    (50 : ℚ) < ((100 : ℤ) : ℚ) := by
  refine ⟨by decide, by decide, by decide⟩

/-! ## C4: unlock rule -/

/-- Every line of the document carries a words array (the source reads
line.words.every when checking words completion and line.words is present on
every document the editor builds). -/
def allWordsPresent (d : Doc) : Bool :=
  d.blocks.all fun b => b.lines.all fun l => l.words.isSome

/-- C4 (amended): membership in the unlocked set after updateUnlockedModes.
Blocks and lines are always unlocked.  Words is unlocked iff lines is fully
completed, or lines is the active mode and its active token is recorded, or
words itself is the active mode.  Chars is unlocked iff lines and words are
both fully completed, or words is the active mode and its active token is
recorded, or chars itself is the active mode.  Full completion of words
alone does not unlock chars: the completion loop breaks at the first
incomplete mode, so the full-completion path is cascading. -/
theorem c4_unlock_characterization (d : Doc) (mode : RecMode) (idx : ℕ)
    (_hwf : allWordsPresent d = true) (m : RecMode) :
    m ∈ updateUnlockedModes d mode idx ↔
      (m = .blocks ∨ m = .lines ∨
       (m = .words ∧ (isModeCompleted d .lines = true ∨
          (mode = .lines ∧ isCurrentTokenRecorded d .lines idx = true) ∨
          mode = .words)) ∨
       (m = .chars ∧ ((isModeCompleted d .lines = true ∧
            isModeCompleted d .words = true) ∨
          (mode = .words ∧ isCurrentTokenRecorded d .words idx = true) ∨
          mode = .chars))) := by
  cases hA : isModeCompleted d .lines <;>
    cases hB : isModeCompleted d .words <;>
    cases hC : isCurrentTokenRecorded d mode idx <;>
    cases mode <;> cases m <;>
    simp_all [updateUnlockedModes, getNextRecordingMode]

/-- A timed demo word. -/
def wTimedDemo : Word :=
  { text := "hi", start := 10, end_ := 20, voice := 1, position := "", chars := none }

/-- An untimed demo word. -/
def wUntimedDemo : Word :=
  { text := "hi", start := 0, end_ := 0, voice := 0, position := "", chars := none }

/-- A fully timed line whose single word is untimed. -/
def docLinesComplete : Doc :=
  { blocks := [{ text := "", start := 0, end_ := 0, voice := 1, position := "",
                 lines := [{ text := "hi", start := 1000, end_ := 2000, voice := 1,
                             position := "", words := some [wUntimedDemo] }] }] }

/-- An untimed line whose single word is timed. -/
def docWordsOnlyComplete : Doc :=
  { blocks := [{ text := "", start := 0, end_ := 0, voice := 1, position := "",
                 lines := [{ text := "hi", start := 0, end_ := 0, voice := 1,
                             position := "", words := some [wTimedDemo] }] }] }

/-- C4 witness: on a document with one fully timed line whose single word is
untimed, with blocks as the active mode, words is unlocked through the
lines-completed path of the characterization. -/
theorem c4_unlock_characterization_witness :
    RecMode.words ∈ updateUnlockedModes docLinesComplete .blocks 0 :=
  (c4_unlock_characterization docLinesComplete .blocks 0 (by decide) .words).mpr
    (Or.inr (Or.inr (Or.inl ⟨rfl, Or.inl (by decide)⟩)))

/-- C4 counterexample: a document whose single line is untimed while every
word token is timed.  Every token at the words mode has both timestamps set,
yet with blocks active and its token unrecorded the unlocked set is only
blocks and lines: chars is not unlocked, contradicting the claimed
if-and-only-if condition (a) at M = words. -/
theorem c4_counterexample :
    isModeCompleted docWordsOnlyComplete .words = true ∧
    updateUnlockedModes docWordsOnlyComplete .blocks 0 = [.blocks, .lines] ∧
    RecMode.chars ∉ updateUnlockedModes docWordsOnlyComplete .blocks 0 := by
  refine ⟨by decide, by decide, by decide⟩

/-! ## C1: bubble-up propagation widens -/

/-- The start bound after widening: the computed minimum when the bound was
unset, otherwise the smaller of the old bound and the computed minimum. -/
def widenSpecS (old new m : ℤ) : Prop :=
  new = (if old = 0 then m else min old m) ∧
  (old ≠ 0 → new ≤ old) ∧ (old = 0 → new = m)

/-- The end bound after widening: the computed maximum when the bound was
unset, otherwise the larger of the old bound and the computed maximum. -/
def widenSpecE (old new m : ℤ) : Prop :=
  new = (if old = 0 then m else max old m) ∧
  (old ≠ 0 → old ≤ new) ∧ (old = 0 → new = m)

theorem widenStart_spec (old m : ℤ) : widenSpecS old (widenStart old m) m := by
  unfold widenSpecS widenStart
  refine ⟨?_, ?_, ?_⟩ <;> split_ifs <;> omega

theorem widenEnd_spec (old m : ℤ) : widenSpecE old (widenEnd old m) m := by
  unfold widenSpecE widenEnd
  refine ⟨?_, ?_, ?_⟩ <;> split_ifs <;> omega

theorem updateBlockFromLines_timed (b : Block) (t : Line) (ts : List Line)
    (h : b.lines.filter (fun l => timedPos l.start l.end_) = t :: ts) :
    updateBlockFromLines b =
      { b with start := widenStart b.start (listMin t.start (ts.map Line.start)),
               end_ := widenEnd b.end_ (listMax t.end_ (ts.map Line.end_)) } := by
  have hne : b.lines.length ≠ 0 := by
    intro hnil
    rw [List.length_eq_zero] at hnil
    rw [hnil] at h
    simp at h
  unfold updateBlockFromLines
  rw [if_neg hne, h]

theorem updateBlockFromLines_untimed (b : Block)
    (h : b.lines.filter (fun l => timedPos l.start l.end_) = []) :
    updateBlockFromLines b = b := by
  unfold updateBlockFromLines
  by_cases hlen : b.lines.length = 0
  · rw [if_pos hlen]
  · rw [if_neg hlen, h]

theorem updateLineFromWords_timed (l : Line) (ws : List Word) (t : Word)
    (ts : List Word) (hws : l.words = some ws)
    (h : ws.filter (fun w => timedPos w.start w.end_) = t :: ts) :
    updateLineFromWords l =
      { l with start := widenStart l.start (listMin t.start (ts.map Word.start)),
               end_ := widenEnd l.end_ (listMax t.end_ (ts.map Word.end_)) } := by
  have hne : ws.length ≠ 0 := by
    intro hnil
    rw [List.length_eq_zero] at hnil
    rw [hnil] at h
    simp at h
  unfold updateLineFromWords
  rw [hws]
  simp only [if_neg hne, h]

theorem updateLineFromWords_untimed (l : Line) :
    (l.words = none → updateLineFromWords l = l) ∧
    (∀ ws, l.words = some ws →
      ws.filter (fun w => timedPos w.start w.end_) = [] → updateLineFromWords l = l) := by
  constructor
  · intro h
    unfold updateLineFromWords
    rw [h]
  · intro ws hws h
    unfold updateLineFromWords
    rw [hws]
    by_cases hlen : ws.length = 0
    · simp only [if_pos hlen]
    · simp only [if_neg hlen, h]

theorem updateWordFromChars_timed (w : Word) (cs : List CharTok) (t : CharTok)
    (ts : List CharTok) (hcs : w.chars = some cs)
    (h : cs.filter (fun c => timedPos c.start c.end_) = t :: ts) :
    updateWordFromChars w =
      { w with start := widenStart w.start (listMin t.start (ts.map CharTok.start)),
               end_ := widenEnd w.end_ (listMax t.end_ (ts.map CharTok.end_)) } := by
  have hne : cs.length ≠ 0 := by
    intro hnil
    rw [List.length_eq_zero] at hnil
    rw [hnil] at h
    simp at h
  unfold updateWordFromChars
  rw [hcs]
  simp only [if_neg hne, h]

theorem updateWordFromChars_untimed (w : Word) :
    (w.chars = none → updateWordFromChars w = w) ∧
    (∀ cs, w.chars = some cs →
      cs.filter (fun c => timedPos c.start c.end_) = [] → updateWordFromChars w = w) := by
  constructor
  · intro h
    unfold updateWordFromChars
    rw [h]
  · intro cs hcs h
    unfold updateWordFromChars
    rw [hcs]
    by_cases hlen : cs.length = 0
    · simp only [if_pos hlen]
    · simp only [if_neg hlen, h]

theorem listMin_pos (x : ℤ) (xs : List ℤ) (hx : 0 < x) (hxs : ∀ y ∈ xs, 0 < y) :
    0 < listMin x xs := by
  unfold listMin
  induction xs generalizing x with
  | nil => exact hx
  | cons y ys ih =>
    simp only [List.foldl_cons]
    refine ih (min x y) ?_ fun z hz => hxs z (by simp [hz])
    have hy : 0 < y := hxs y (by simp)
    omega

theorem listMax_pos (x : ℤ) (xs : List ℤ) (hx : 0 < x) :
    0 < listMax x xs := by
  unfold listMax
  induction xs generalizing x with
  | nil => exact hx
  | cons y ys ih =>
    simp only [List.foldl_cons]
    refine ih (max x y) ?_
    omega

theorem filter_timedPos_head_pos {α : Type} (proj1 proj2 : α → ℤ) (l : List α)
    (t : α) (ts : List α)
    (h : l.filter (fun a => timedPos (proj1 a) (proj2 a)) = t :: ts) :
    (0 < proj1 t ∧ 0 < proj2 t) ∧ ∀ a ∈ ts, 0 < proj1 a ∧ 0 < proj2 a := by
  have hmem : ∀ a ∈ t :: ts, timedPos (proj1 a) (proj2 a) = true := by
    intro a ha
    rw [← h] at ha
    exact (List.mem_filter.mp ha).2
  have hval : ∀ a ∈ t :: ts, 0 < proj1 a ∧ 0 < proj2 a := by
    intro a ha
    have := hmem a ha
    unfold timedPos at this
    simp only [Bool.and_eq_true, decide_eq_true_eq] at this
    exact this
  exact ⟨hval t (by simp), fun a ha => hval a (by simp [ha])⟩

/-- Widening between an old and a new word: a set start never increases and
stays set, and a set end never decreases and stays set. -/
def wordWidens (w w2 : Word) : Prop :=
  (w.start ≠ 0 → w2.start ≤ w.start ∧ w2.start ≠ 0) ∧
  (w.end_ ≠ 0 → w.end_ ≤ w2.end_ ∧ w2.end_ ≠ 0)

def lineWidens (l l2 : Line) : Prop :=
  ((l.start ≠ 0 → l2.start ≤ l.start ∧ l2.start ≠ 0) ∧
   (l.end_ ≠ 0 → l.end_ ≤ l2.end_ ∧ l2.end_ ≠ 0)) ∧
  (l.words = none ↔ l2.words = none) ∧
  (∀ ws ws2, l.words = some ws → l2.words = some ws2 →
    ws2.length = ws.length ∧
    ∀ k (hk : k < ws.length) (hk2 : k < ws2.length), wordWidens ws[k] ws2[k])

def blockWidens (b b2 : Block) : Prop :=
  ((b.start ≠ 0 → b2.start ≤ b.start ∧ b2.start ≠ 0) ∧
   (b.end_ ≠ 0 → b.end_ ≤ b2.end_ ∧ b2.end_ ≠ 0)) ∧
  b2.lines.length = b.lines.length ∧
  ∀ j (hj : j < b.lines.length) (hj2 : j < b2.lines.length),
    lineWidens b.lines[j] b2.lines[j]

def docWidens (d d2 : Doc) : Prop :=
  d2.blocks.length = d.blocks.length ∧
  ∀ i (hi : i < d.blocks.length) (hi2 : i < d2.blocks.length),
    blockWidens d.blocks[i] d2.blocks[i]

theorem wordWidens_refl (w : Word) : wordWidens w w :=
  ⟨fun h => ⟨le_refl _, h⟩, fun h => ⟨le_refl _, h⟩⟩

theorem lineWidens_refl (l : Line) : lineWidens l l := by
  refine ⟨⟨fun h => ⟨le_refl _, h⟩, fun h => ⟨le_refl _, h⟩⟩, Iff.rfl, ?_⟩
  intro ws ws2 h1 h2
  rw [h1] at h2
  cases h2
  exact ⟨rfl, fun k hk hk2 => wordWidens_refl _⟩

theorem blockWidens_refl (b : Block) : blockWidens b b :=
  ⟨⟨fun h => ⟨le_refl _, h⟩, fun h => ⟨le_refl _, h⟩⟩, rfl,
   fun _ _ _ => lineWidens_refl _⟩

theorem wordWidens_trans {a b c : Word} (h1 : wordWidens a b) (h2 : wordWidens b c) :
    wordWidens a c := by
  refine ⟨fun h => ?_, fun h => ?_⟩
  · obtain ⟨hle1, hne1⟩ := h1.1 h
    obtain ⟨hle2, hne2⟩ := h2.1 hne1
    exact ⟨le_trans hle2 hle1, hne2⟩
  · obtain ⟨hle1, hne1⟩ := h1.2 h
    obtain ⟨hle2, hne2⟩ := h2.2 hne1
    exact ⟨le_trans hle1 hle2, hne2⟩

theorem lineWidens_trans {a b c : Line} (h1 : lineWidens a b) (h2 : lineWidens b c) :
    lineWidens a c := by
  refine ⟨⟨fun h => ?_, fun h => ?_⟩, h1.2.1.trans h2.2.1, ?_⟩
  · obtain ⟨hle1, hne1⟩ := h1.1.1 h
    obtain ⟨hle2, hne2⟩ := h2.1.1 hne1
    exact ⟨le_trans hle2 hle1, hne2⟩
  · obtain ⟨hle1, hne1⟩ := h1.1.2 h
    obtain ⟨hle2, hne2⟩ := h2.1.2 hne1
    exact ⟨le_trans hle1 hle2, hne2⟩
  · intro ws ws2 hws hws2
    cases hwb : b.words with
    | none =>
      have : a.words = none := h1.2.1.mpr hwb
      rw [this] at hws
      cases hws
    | some wsb =>
      obtain ⟨hl1, he1⟩ := h1.2.2 ws wsb hws hwb
      obtain ⟨hl2, he2⟩ := h2.2.2 wsb ws2 hwb hws2
      refine ⟨by omega, fun k hk hk2 => ?_⟩
      exact wordWidens_trans (he1 k hk (by omega)) (he2 k (by omega) hk2)

theorem blockWidens_trans {a b c : Block} (h1 : blockWidens a b) (h2 : blockWidens b c) :
    blockWidens a c := by
  refine ⟨⟨fun h => ?_, fun h => ?_⟩, h2.2.1.trans h1.2.1, ?_⟩
  · obtain ⟨hle1, hne1⟩ := h1.1.1 h
    obtain ⟨hle2, hne2⟩ := h2.1.1 hne1
    exact ⟨le_trans hle2 hle1, hne2⟩
  · obtain ⟨hle1, hne1⟩ := h1.1.2 h
    obtain ⟨hle2, hne2⟩ := h2.1.2 hne1
    exact ⟨le_trans hle1 hle2, hne2⟩
  · intro j hj hj2
    have hjb : j < b.lines.length := by
      have := h1.2.1
      omega
    exact lineWidens_trans (h1.2.2 j hj hjb) (h2.2.2 j hjb hj2)

theorem docWidens_trans {a b c : Doc} (h1 : docWidens a b) (h2 : docWidens b c) :
    docWidens a c := by
  refine ⟨h2.1.trans h1.1, fun i hi hi2 => ?_⟩
  have hib : i < b.blocks.length := by
    have := h1.1
    omega
  exact blockWidens_trans (h1.2 i hi hib) (h2.2 i hib hi2)

theorem widenStart_widens (old m : ℤ) (hm : 0 < m) :
    (old ≠ 0 → widenStart old m ≤ old ∧ widenStart old m ≠ 0) := by
  intro h
  unfold widenStart
  split_ifs <;> omega

theorem widenEnd_widens (old m : ℤ) (hm : 0 < m) :
    (old ≠ 0 → old ≤ widenEnd old m ∧ widenEnd old m ≠ 0) := by
  intro h
  unfold widenEnd
  split_ifs <;> omega

theorem updateWordFromChars_widens (w : Word) : wordWidens w (updateWordFromChars w) := by
  cases hcs : w.chars with
  | none =>
    rw [(updateWordFromChars_untimed w).1 hcs]
    exact wordWidens_refl _
  | some cs =>
    cases hf : cs.filter (fun c => timedPos c.start c.end_) with
    | nil =>
      rw [(updateWordFromChars_untimed w).2 cs hcs hf]
      exact wordWidens_refl _
    | cons t ts =>
      rw [updateWordFromChars_timed w cs t ts hcs hf]
      obtain ⟨ht, hts⟩ := filter_timedPos_head_pos CharTok.start CharTok.end_ cs t ts hf
      have hm : 0 < listMin t.start (ts.map CharTok.start) :=
        listMin_pos _ _ ht.1 (by
          intro y hy
          obtain ⟨a, ha, rfl⟩ := List.mem_map.mp hy
          exact (hts a ha).1)
      have hM : 0 < listMax t.end_ (ts.map CharTok.end_) := listMax_pos _ _ ht.2
      exact ⟨widenStart_widens _ _ hm, widenEnd_widens _ _ hM⟩

theorem updateLineFromWords_widens (l : Line) : lineWidens l (updateLineFromWords l) := by
  cases hws : l.words with
  | none =>
    rw [(updateLineFromWords_untimed l).1 hws]
    exact lineWidens_refl _
  | some ws =>
    cases hf : ws.filter (fun w => timedPos w.start w.end_) with
    | nil =>
      rw [(updateLineFromWords_untimed l).2 ws hws hf]
      exact lineWidens_refl _
    | cons t ts =>
      rw [updateLineFromWords_timed l ws t ts hws hf]
      obtain ⟨ht, hts⟩ := filter_timedPos_head_pos Word.start Word.end_ ws t ts hf
      have hm : 0 < listMin t.start (ts.map Word.start) :=
        listMin_pos _ _ ht.1 (by
          intro y hy
          obtain ⟨a, ha, rfl⟩ := List.mem_map.mp hy
          exact (hts a ha).1)
      have hM : 0 < listMax t.end_ (ts.map Word.end_) := listMax_pos _ _ ht.2
      refine ⟨⟨widenStart_widens _ _ hm, widenEnd_widens _ _ hM⟩, Iff.rfl, ?_⟩
      intro ws1 ws2 h1 h2
      rw [h1] at h2
      cases h2
      exact ⟨rfl, fun k hk hk2 => wordWidens_refl _⟩

theorem updateBlockFromLines_widens (b : Block) : blockWidens b (updateBlockFromLines b) := by
  cases hf : b.lines.filter (fun l => timedPos l.start l.end_) with
  | nil =>
    rw [updateBlockFromLines_untimed b hf]
    exact blockWidens_refl _
  | cons t ts =>
    rw [updateBlockFromLines_timed b t ts hf]
    obtain ⟨ht, hts⟩ := filter_timedPos_head_pos Line.start Line.end_ b.lines t ts hf
    have hm : 0 < listMin t.start (ts.map Line.start) :=
      listMin_pos _ _ ht.1 (by
        intro y hy
        obtain ⟨a, ha, rfl⟩ := List.mem_map.mp hy
        exact (hts a ha).1)
    have hM : 0 < listMax t.end_ (ts.map Line.end_) := listMax_pos _ _ ht.2
    exact ⟨⟨widenStart_widens _ _ hm, widenEnd_widens _ _ hM⟩, rfl,
           fun _ _ _ => lineWidens_refl _⟩

theorem blockWidens_mapLines (b : Block) (f : Line → Line)
    (hf : ∀ l, lineWidens l (f l)) :
    blockWidens b { b with lines := b.lines.map f } := by
  refine ⟨⟨fun h => ⟨le_refl _, h⟩, fun h => ⟨le_refl _, h⟩⟩, by simp, ?_⟩
  intro j hj hj2
  simp only [List.getElem_map]
  exact hf _

theorem lineWidens_setWords (l : Line) (ws : List Word) (f : Word → Word)
    (hws : l.words = some ws) (hf : ∀ w, wordWidens w (f w)) :
    lineWidens l { l with words := some (ws.map f) } := by
  refine ⟨⟨fun h => ⟨le_refl _, h⟩, fun h => ⟨le_refl _, h⟩⟩, by simp [hws], ?_⟩
  intro ws1 ws2 h1 h2
  rw [hws] at h1
  cases h1
  simp only [Option.some.injEq] at h2
  subst h2
  refine ⟨by simp, fun k hk hk2 => ?_⟩
  simp only [List.getElem_map]
  exact hf _

theorem docWidens_map (d : Doc) (f : Block → Block)
    (hf : ∀ b, blockWidens b (f b)) :
    docWidens d { blocks := d.blocks.map f } := by
  refine ⟨by simp, fun i hi hi2 => ?_⟩
  simp only [List.getElem_map]
  exact hf _

theorem updateBlockTimingFromLines_widens (d : Doc) :
    docWidens d (updateBlockTimingFromLines d) :=
  docWidens_map d _ updateBlockFromLines_widens

theorem updateParentTimingFromWords_widens (d : Doc) :
    docWidens d (updateParentTimingFromWords d) := by
  unfold updateParentTimingFromWords
  refine docWidens_trans ?_ (updateBlockTimingFromLines_widens _)
  exact docWidens_map d _ fun b => blockWidens_mapLines b _ updateLineFromWords_widens

theorem updateParentTimingFromChars_widens (d : Doc) :
    docWidens d (updateParentTimingFromChars d) := by
  unfold updateParentTimingFromChars
  refine docWidens_trans ?_ (updateParentTimingFromWords_widens _)
  refine docWidens_map d _ fun b => blockWidens_mapLines b _ fun l => ?_
  cases hws : l.words with
  | none =>
    simp only [hws]
    exact lineWidens_refl _
  | some ws =>
    simp only [hws]
    exact lineWidens_setWords l ws _ hws updateWordFromChars_widens

/-- C1: bubble-up propagation recomputes each ancestor start as the minimum
of the starts of its timed children (those with start > 0 and end > 0) and
each ancestor end as the maximum of their ends, but only widens: a node
whose children include no timed child is left unchanged; an unset bound is
set exactly to the computed minimum or maximum; a set start only ever moves
down to the computed minimum and a set end only ever moves up to the
computed maximum.  Consequently, across the propagation run by any record
call at the lines, words or chars level, no set start of any ancestor
increases and no set end decreases. -/
theorem c1_bubble_up_widening :
    (∀ (b : Block) (t : Line) (ts : List Line),
      b.lines.filter (fun l => timedPos l.start l.end_) = t :: ts →
      widenSpecS b.start (updateBlockFromLines b).start
        (listMin t.start (ts.map Line.start)) ∧
      widenSpecE b.end_ (updateBlockFromLines b).end_
        (listMax t.end_ (ts.map Line.end_)) ∧
      (updateBlockFromLines b).lines = b.lines) ∧
    (∀ (b : Block), b.lines.filter (fun l => timedPos l.start l.end_) = [] →
      updateBlockFromLines b = b) ∧
    (∀ (l : Line) (ws : List Word) (t : Word) (ts : List Word),
      l.words = some ws →
      ws.filter (fun w => timedPos w.start w.end_) = t :: ts →
      widenSpecS l.start (updateLineFromWords l).start
        (listMin t.start (ts.map Word.start)) ∧
      widenSpecE l.end_ (updateLineFromWords l).end_
        (listMax t.end_ (ts.map Word.end_)) ∧
      (updateLineFromWords l).words = l.words) ∧
    (∀ (w : Word) (cs : List CharTok) (t : CharTok) (ts : List CharTok),
      w.chars = some cs →
      cs.filter (fun c => timedPos c.start c.end_) = t :: ts →
      widenSpecS w.start (updateWordFromChars w).start
        (listMin t.start (ts.map CharTok.start)) ∧
      widenSpecE w.end_ (updateWordFromChars w).end_
        (listMax t.end_ (ts.map CharTok.end_)) ∧
      (updateWordFromChars w).chars = w.chars) ∧
    (∀ d : Doc, docWidens d (updateBlockTimingFromLines d) ∧
      docWidens d (updateParentTimingFromWords d) ∧
      docWidens d (updateParentTimingFromChars d)) := by
  refine ⟨?_, ?_, ?_, ?_, ?_⟩
  · intro b t ts h
    rw [updateBlockFromLines_timed b t ts h]
    exact ⟨widenStart_spec _ _, widenEnd_spec _ _, rfl⟩
  · intro b h
    exact updateBlockFromLines_untimed b h
  · intro l ws t ts hws h
    rw [updateLineFromWords_timed l ws t ts hws h]
    exact ⟨widenStart_spec _ _, widenEnd_spec _ _, rfl⟩
  · intro w cs t ts hcs h
    rw [updateWordFromChars_timed w cs t ts hcs h]
    exact ⟨widenStart_spec _ _, widenEnd_spec _ _, rfl⟩
  · intro d
    exact ⟨updateBlockTimingFromLines_widens d, updateParentTimingFromWords_widens d,
           updateParentTimingFromChars_widens d⟩

/-- C1 witness: the theorem applied to a block at 0 to 0 with one timed line
from 1000 to 2000: the block bounds are set exactly to the child bounds. -/
theorem c1_bubble_up_widening_witness :
    (updateBlockFromLines
      { text := "", start := 0, end_ := 0, voice := 1, position := "",
        lines := [{ text := "hi", start := 1000, end_ := 2000, voice := 1,
                    position := "", words := none }] }).start = 1000 := by
  have h := (c1_bubble_up_widening.1
    { text := "", start := 0, end_ := 0, voice := 1, position := "",
      lines := [{ text := "hi", start := 1000, end_ := 2000, voice := 1,
                  position := "", words := none }] }
    { text := "hi", start := 1000, end_ := 2000, voice := 1,
      position := "", words := none } [] (by decide)).1.2.2 rfl
  simpa [listMin] using h

/-! ## C2: even redistribution of a strict mix -/

def timedLinesCount (ls : List Line) : ℕ :=
  (ls.filter fun l => timedTok l.start l.end_).length

def timedWordsCount (ws : List Word) : ℕ :=
  (ws.filter fun w => timedTok w.start w.end_).length

def timedCharsCount (cs : List CharTok) : ℕ :=
  (cs.filter fun c => timedTok c.start c.end_).length

/-- A strict mix: more than zero but fewer than all children timed. -/
def strictMix (c n : ℕ) : Prop := 0 < c ∧ c < n

instance (c n : ℕ) : Decidable (strictMix c n) := by
  unfold strictMix
  exact instDecidableAnd

theorem interpLinesArr_mixed (ps pe : ℤ) (pv : ℕ) (ls : List Line)
    (h : strictMix (timedLinesCount ls) ls.length) :
    interpLinesArr ps pe pv ls = ls.mapIdx fun i l =>
      { l with start := interpStart ps pe ls.length i,
               end_ := interpEnd ps pe ls.length i,
               voice := jsOrV l.voice pv } := by
  unfold interpLinesArr
  rw [if_neg (by have := h.1; unfold timedLinesCount at this; omega),
      if_pos (by have := h.2; unfold timedLinesCount at this; exact this)]

theorem interpLinesArr_nomix (ps pe : ℤ) (pv : ℕ) (ls : List Line)
    (h : ¬ strictMix (timedLinesCount ls) ls.length) :
    interpLinesArr ps pe pv ls = ls := by
  unfold interpLinesArr
  unfold strictMix at h
  push_neg at h
  by_cases h0 : (ls.filter fun l => timedTok l.start l.end_).length = 0
  · rw [if_pos h0]
  · rw [if_neg h0, if_neg ?_]
    have := h (by unfold timedLinesCount; omega)
    unfold timedLinesCount at this
    omega

theorem interpWordsArr_mixed (ps pe : ℤ) (pv : ℕ) (ws : List Word)
    (h : strictMix (timedWordsCount ws) ws.length) :
    interpWordsArr ps pe pv ws = some (ws.mapIdx fun i w =>
      { w with start := interpStart ps pe ws.length i,
               end_ := interpEnd ps pe ws.length i,
               voice := jsOrV w.voice pv }) := by
  unfold interpWordsArr
  rw [if_neg (by have := h.1; unfold timedWordsCount at this; omega),
      if_pos (by have := h.2; unfold timedWordsCount at this; exact this)]

theorem interpWordsArr_zero (ps pe : ℤ) (pv : ℕ) (ws : List Word)
    (h : timedWordsCount ws = 0) :
    interpWordsArr ps pe pv ws = none := by
  unfold interpWordsArr
  rw [if_pos (by unfold timedWordsCount at h; exact h)]

theorem interpWordsArr_full (ps pe : ℤ) (pv : ℕ) (ws : List Word)
    (h0 : timedWordsCount ws ≠ 0) (h1 : ¬ timedWordsCount ws < ws.length) :
    interpWordsArr ps pe pv ws = some ws := by
  unfold interpWordsArr
  unfold timedWordsCount at h0 h1
  rw [if_neg h0, if_neg h1]

theorem interpCharsArr_mixed (ps pe : ℤ) (wv lv : ℕ) (cs : List CharTok)
    (h : strictMix (timedCharsCount cs) cs.length) :
    interpCharsArr ps pe wv lv cs = some (cs.mapIdx fun i c =>
      { c with start := interpStart ps pe cs.length i,
               end_ := interpEnd ps pe cs.length i,
               voice := jsOrV c.voice (jsOrV wv lv) }) := by
  unfold interpCharsArr
  rw [if_neg (by have := h.1; unfold timedCharsCount at this; omega),
      if_pos (by have := h.2; unfold timedCharsCount at this; exact this)]

theorem interpCharsArr_zero (ps pe : ℤ) (wv lv : ℕ) (cs : List CharTok)
    (h : timedCharsCount cs = 0) :
    interpCharsArr ps pe wv lv cs = none := by
  unfold interpCharsArr
  rw [if_pos (by unfold timedCharsCount at h; exact h)]

theorem interpCharsArr_full (ps pe : ℤ) (wv lv : ℕ) (cs : List CharTok)
    (h0 : timedCharsCount cs ≠ 0) (h1 : ¬ timedCharsCount cs < cs.length) :
    interpCharsArr ps pe wv lv cs = some cs := by
  unfold interpCharsArr
  unfold timedCharsCount at h0 h1
  rw [if_neg h0, if_neg h1]

theorem interpChars_scalars (lv : ℕ) (w : Word) :
    (interpChars lv w).start = w.start ∧ (interpChars lv w).end_ = w.end_ ∧
    (interpChars lv w).voice = w.voice ∧ (interpChars lv w).text = w.text := by
  unfold interpChars
  cases hc : w.chars <;> simp [hc]

theorem clearWordText_scalars (w : Word) :
    (clearWordText w).start = w.start ∧ (clearWordText w).end_ = w.end_ ∧
    (clearWordText w).voice = w.voice ∧ (clearWordText w).chars = w.chars := by
  unfold clearWordText
  cases hc : w.chars with
  | none => simp [hc]
  | some cs => by_cases h : 0 < cs.length <;> simp [hc, h]

theorem interpWords_scalars (l : Line) :
    (interpWords l).start = l.start ∧ (interpWords l).end_ = l.end_ ∧
    (interpWords l).voice = l.voice ∧ (interpWords l).text = l.text := by
  unfold interpWords
  cases hw : l.words <;> simp [hw]

theorem cleanupLine_scalars (l : Line) :
    (cleanupLine l).start = l.start ∧ (cleanupLine l).end_ = l.end_ ∧
    (cleanupLine l).voice = l.voice ∧ (cleanupLine l).text = l.text := by
  unfold cleanupLine
  cases hw : (interpWords l).words <;>
    simp [interpWords_scalars l, hw]

theorem clearLineText_scalars (l : Line) :
    (clearLineText l).start = l.start ∧ (clearLineText l).end_ = l.end_ ∧
    (clearLineText l).voice = l.voice := by
  unfold clearLineText
  cases hw : l.words with
  | none => simp [hw]
  | some ws =>
    by_cases hlen : 0 < ws.length <;> simp [hw, hlen]

theorem clearBlockText_lines (b : Block) :
    (clearBlockText b).lines = b.lines.map clearLineText := by
  unfold clearBlockText
  split_ifs <;> rfl

theorem cleanup_blocks_get (d : Doc) :
    (cleanupTimingData d).blocks.length = d.blocks.length ∧
    ∀ i (hi : i < d.blocks.length) (hi2 : i < (cleanupTimingData d).blocks.length),
      (cleanupTimingData d).blocks[i] = clearBlockText (cleanupBlock d.blocks[i]) := by
  unfold cleanupTimingData clearTextsDoc interpDoc
  refine ⟨by simp, fun i hi hi2 => ?_⟩
  simp

theorem cleanupLine_words_none (l : Line) (hw : l.words = none) :
    cleanupLine l = l := by
  unfold cleanupLine interpWords
  simp [hw]

theorem cleanupLine_of_arr_none (l : Line) (ws : List Word) (hws : l.words = some ws)
    (h : interpWordsArr l.start l.end_ l.voice ws = none) :
    cleanupLine l = { l with words := none } := by
  unfold cleanupLine interpWords
  simp [hws, h]

theorem cleanupLine_of_arr_some (l : Line) (ws ws1 : List Word) (hws : l.words = some ws)
    (h : interpWordsArr l.start l.end_ l.voice ws = some ws1) :
    cleanupLine l = { l with words := some (ws1.map (interpChars l.voice)) } := by
  unfold cleanupLine interpWords
  simp [hws, h]

theorem cleanupBlock_lines (b : Block) :
    (cleanupBlock b).lines =
      (interpLinesArr b.start b.end_ b.voice b.lines).map cleanupLine := rfl

theorem clearLineText_words (l : Line) :
    (clearLineText l).words = l.words.map fun ws => ws.map clearWordText := by
  unfold clearLineText
  cases hw : l.words with
  | none => simp [hw]
  | some ws => by_cases h : 0 < ws.length <;> simp [hw, h]

theorem interpChars_of_some (lv : ℕ) (w : Word) (cs : List CharTok)
    (hcs : w.chars = some cs) :
    interpChars lv w = { w with chars := interpCharsArr w.start w.end_ w.voice lv cs } := by
  unfold interpChars
  rw [hcs]

/-- C2: in the export cleanup pass, every parent whose children are a strict
mix of timed and untimed (at least one but fewer than all children carry a
non-sentinel pair) has all of its children reassigned the even split of the
parent bounds: child i receives start = parent.start + i * duration / N and
end = parent.start + (i + 1) * duration / N, rounded to the nearest
millisecond, computed from the parent bounds alone and not from the previous
child stamps, and a child with voice 0 inherits the parent voice.  The lines
level always reads the recorded block bounds; the words (respectively chars)
level reads the recorded line (respectively word) bounds whenever that
parent was not itself redistributed earlier in the same pass, which the
non-mix hypotheses express. -/
theorem c2_interpolation_redistribution :
    (∀ (d : Doc) (i : ℕ) (hi : i < d.blocks.length),
      strictMix (timedLinesCount d.blocks[i].lines) d.blocks[i].lines.length →
      ∃ hi2 : i < (cleanupTimingData d).blocks.length,
        (cleanupTimingData d).blocks[i].lines.length = d.blocks[i].lines.length ∧
        ∀ j (hj : j < d.blocks[i].lines.length)
          (hj2 : j < (cleanupTimingData d).blocks[i].lines.length),
          (cleanupTimingData d).blocks[i].lines[j].start =
            interpStart d.blocks[i].start d.blocks[i].end_ d.blocks[i].lines.length j ∧
          (cleanupTimingData d).blocks[i].lines[j].end_ =
            interpEnd d.blocks[i].start d.blocks[i].end_ d.blocks[i].lines.length j ∧
          (cleanupTimingData d).blocks[i].lines[j].voice =
            jsOrV d.blocks[i].lines[j].voice d.blocks[i].voice) ∧
    (∀ (d : Doc) (i : ℕ) (hi : i < d.blocks.length) (j : ℕ)
      (hj : j < d.blocks[i].lines.length) (ws : List Word),
      ¬ strictMix (timedLinesCount d.blocks[i].lines) d.blocks[i].lines.length →
      d.blocks[i].lines[j].words = some ws →
      strictMix (timedWordsCount ws) ws.length →
      ∃ (hi2 : i < (cleanupTimingData d).blocks.length)
        (hj2 : j < (cleanupTimingData d).blocks[i].lines.length)
        (ws2 : List Word),
        (cleanupTimingData d).blocks[i].lines[j].words = some ws2 ∧
        ws2.length = ws.length ∧
        ∀ k (hk : k < ws.length) (hk2 : k < ws2.length),
          ws2[k].start =
            interpStart d.blocks[i].lines[j].start d.blocks[i].lines[j].end_
              ws.length k ∧
          ws2[k].end_ =
            interpEnd d.blocks[i].lines[j].start d.blocks[i].lines[j].end_
              ws.length k ∧
          ws2[k].voice = jsOrV ws[k].voice d.blocks[i].lines[j].voice) ∧
    (∀ (d : Doc) (i : ℕ) (hi : i < d.blocks.length) (j : ℕ)
      (hj : j < d.blocks[i].lines.length) (ws : List Word) (k : ℕ)
      (hk : k < ws.length) (cs : List CharTok),
      ¬ strictMix (timedLinesCount d.blocks[i].lines) d.blocks[i].lines.length →
      d.blocks[i].lines[j].words = some ws →
      ¬ strictMix (timedWordsCount ws) ws.length →
      timedWordsCount ws ≠ 0 →
      ws[k].chars = some cs →
      strictMix (timedCharsCount cs) cs.length →
      ∃ (hi2 : i < (cleanupTimingData d).blocks.length)
        (hj2 : j < (cleanupTimingData d).blocks[i].lines.length)
        (ws2 : List Word),
        (cleanupTimingData d).blocks[i].lines[j].words = some ws2 ∧
        ws2.length = ws.length ∧
        ∃ (hk2 : k < ws2.length) (cs2 : List CharTok),
          ws2[k].chars = some cs2 ∧
          cs2.length = cs.length ∧
          ∀ m (hm : m < cs.length) (hm2 : m < cs2.length),
            cs2[m].start = interpStart ws[k].start ws[k].end_ cs.length m ∧
            cs2[m].end_ = interpEnd ws[k].start ws[k].end_ cs.length m ∧
            cs2[m].voice =
              jsOrV cs[m].voice (jsOrV ws[k].voice d.blocks[i].lines[j].voice)) := by
  refine ⟨?_, ?_, ?_⟩
  · intro d i hi hmix
    obtain ⟨hlenB, hget⟩ := cleanup_blocks_get d
    have hi2 : i < (cleanupTimingData d).blocks.length := by omega
    have hlines : (cleanupTimingData d).blocks[i].lines =
        ((d.blocks[i].lines.mapIdx fun jj l =>
          { l with
              start := interpStart d.blocks[i].start d.blocks[i].end_
                d.blocks[i].lines.length jj,
              end_ := interpEnd d.blocks[i].start d.blocks[i].end_
                d.blocks[i].lines.length jj,
              voice := jsOrV l.voice d.blocks[i].voice }).map cleanupLine).map
          clearLineText := by
      rw [hget i hi hi2, clearBlockText_lines, cleanupBlock_lines,
        interpLinesArr_mixed _ _ _ _ hmix]
    refine ⟨hi2, by rw [hlines]; simp, ?_⟩
    intro j hj hj2
    have hj3 : j < (((d.blocks[i].lines.mapIdx fun jj l =>
        { l with
            start := interpStart d.blocks[i].start d.blocks[i].end_
              d.blocks[i].lines.length jj,
            end_ := interpEnd d.blocks[i].start d.blocks[i].end_
              d.blocks[i].lines.length jj,
            voice := jsOrV l.voice d.blocks[i].voice }).map cleanupLine).map
        clearLineText).length := by
      simp [hj]
    simp only [hlines, List.getElem_map, List.getElem_mapIdx]
    refine ⟨?_, ?_, ?_⟩
    · rw [(clearLineText_scalars _).1, (cleanupLine_scalars _).1]
    · rw [(clearLineText_scalars _).2.1, (cleanupLine_scalars _).2.1]
    · rw [(clearLineText_scalars _).2.2, (cleanupLine_scalars _).2.2.1]
  · intro d i hi j hj ws hnm hws hmixw
    obtain ⟨hlenB, hget⟩ := cleanup_blocks_get d
    have hi2 : i < (cleanupTimingData d).blocks.length := by omega
    have hlines : (cleanupTimingData d).blocks[i].lines =
        (d.blocks[i].lines.map cleanupLine).map clearLineText := by
      rw [hget i hi hi2, clearBlockText_lines, cleanupBlock_lines,
        interpLinesArr_nomix _ _ _ _ hnm]
    have hlen2 : (cleanupTimingData d).blocks[i].lines.length =
        d.blocks[i].lines.length := by
      rw [hlines]
      simp
    have hj2 : j < (cleanupTimingData d).blocks[i].lines.length := by omega
    have harr : interpWordsArr d.blocks[i].lines[j].start d.blocks[i].lines[j].end_
        d.blocks[i].lines[j].voice ws =
        some (ws.mapIdx fun k w =>
          { w with
              start := interpStart d.blocks[i].lines[j].start
                d.blocks[i].lines[j].end_ ws.length k,
              end_ := interpEnd d.blocks[i].lines[j].start
                d.blocks[i].lines[j].end_ ws.length k,
              voice := jsOrV w.voice d.blocks[i].lines[j].voice }) :=
      interpWordsArr_mixed _ _ _ _ hmixw
    have hcl := cleanupLine_of_arr_some d.blocks[i].lines[j] ws _ hws harr
    have hline : (cleanupTimingData d).blocks[i].lines[j] =
        clearLineText (cleanupLine d.blocks[i].lines[j]) := by
      conv_lhs => rw [List.getElem_of_eq hlines hj2]
      simp
    refine ⟨hi2, hj2,
      ((ws.mapIdx fun kk w =>
        { w with
            start := interpStart d.blocks[i].lines[j].start
              d.blocks[i].lines[j].end_ ws.length kk,
            end_ := interpEnd d.blocks[i].lines[j].start
              d.blocks[i].lines[j].end_ ws.length kk,
            voice := jsOrV w.voice d.blocks[i].lines[j].voice }).map
        (interpChars d.blocks[i].lines[j].voice)).map clearWordText, ?_, ?_, ?_⟩
    · rw [hline, clearLineText_words, hcl]
      simp
    · simp
    · intro k hk hk2
      simp only [List.getElem_map, List.getElem_mapIdx]
      refine ⟨?_, ?_, ?_⟩
      · rw [(clearWordText_scalars _).1, (interpChars_scalars _ _).1]
      · rw [(clearWordText_scalars _).2.1, (interpChars_scalars _ _).2.1]
      · rw [(clearWordText_scalars _).2.2.1, (interpChars_scalars _ _).2.2.1]
  · intro d i hi j hj ws k hk cs hnm hws hnmw hnz hcs hmixc
    obtain ⟨hlenB, hget⟩ := cleanup_blocks_get d
    have hi2 : i < (cleanupTimingData d).blocks.length := by omega
    have hlines : (cleanupTimingData d).blocks[i].lines =
        (d.blocks[i].lines.map cleanupLine).map clearLineText := by
      rw [hget i hi hi2, clearBlockText_lines, cleanupBlock_lines,
        interpLinesArr_nomix _ _ _ _ hnm]
    have hlen2 : (cleanupTimingData d).blocks[i].lines.length =
        d.blocks[i].lines.length := by
      rw [hlines]
      simp
    have hj2 : j < (cleanupTimingData d).blocks[i].lines.length := by omega
    have harr : interpWordsArr d.blocks[i].lines[j].start d.blocks[i].lines[j].end_
        d.blocks[i].lines[j].voice ws = some ws :=
      interpWordsArr_full _ _ _ _ hnz (by
        intro hlt
        exact hnmw ⟨by omega, hlt⟩)
    have hcl := cleanupLine_of_arr_some d.blocks[i].lines[j] ws ws hws harr
    have hline : (cleanupTimingData d).blocks[i].lines[j] =
        clearLineText (cleanupLine d.blocks[i].lines[j]) := by
      conv_lhs => rw [List.getElem_of_eq hlines hj2]
      simp
    refine ⟨hi2, hj2,
      (ws.map (interpChars d.blocks[i].lines[j].voice)).map clearWordText,
      ?_, ?_, ?_⟩
    · rw [hline, clearLineText_words, hcl]
      simp
    · simp
    · refine ⟨by simp [hk],
        cs.mapIdx fun m c =>
          { c with
              start := interpStart ws[k].start ws[k].end_ cs.length m,
              end_ := interpEnd ws[k].start ws[k].end_ cs.length m,
              voice := jsOrV c.voice
                (jsOrV ws[k].voice d.blocks[i].lines[j].voice) }, ?_, ?_, ?_⟩
      · simp only [List.getElem_map]
        rw [(clearWordText_scalars _).2.2.2, interpChars_of_some _ _ cs hcs]
        rw [show ({ ws[k] with
            chars := interpCharsArr ws[k].start ws[k].end_ ws[k].voice
              d.blocks[i].lines[j].voice cs } : Word).chars =
          interpCharsArr ws[k].start ws[k].end_ ws[k].voice
            d.blocks[i].lines[j].voice cs from rfl]
        rw [interpCharsArr_mixed _ _ _ _ _ hmixc]
      · simp
      · intro m hm hm2
        simp

/-- Scenario B document: one block with one fully timed line from 400 to
1600 holding three words, of which the first and third carry manual stamps
and the middle one is untimed. -/
def docScenarioB : Doc :=
  { blocks := [{ text := "", start := 400, end_ := 1600, voice := 1, position := "",
                 lines := [{ text := "a b c", start := 400, end_ := 1600, voice := 1,
                             position := "",
                             words := some
                               [{ text := "a", start := 500, end_ := 800, voice := 1,
                                  position := "", chars := none },
                                { text := "b", start := 0, end_ := 0, voice := 0,
                                  position := "", chars := none },
                                { text := "c", start := 1200, end_ := 1500, voice := 1,
                                  position := "", chars := none }] }] }] }

/-- C2 witness: on the scenario-B document the middle word is reassigned
exactly 800 to 1200, the even thirds of the recorded line span 400 to 1600,
independent of the neighbour stamps 500-800 and 1200-1500. -/
theorem c2_interpolation_redistribution_witness :
    ∃ ws2 : List Word,
      (∃ (hi2 : 0 < (cleanupTimingData docScenarioB).blocks.length)
         (hj2 : 0 < (cleanupTimingData docScenarioB).blocks[0].lines.length),
        (cleanupTimingData docScenarioB).blocks[0].lines[0].words = some ws2) ∧
      ws2.length = 3 ∧
      ∃ hk : 1 < ws2.length, ws2[1].start = 800 ∧ ws2[1].end_ = 1200 := by
  obtain ⟨hi2, hj2, ws2, hsome, hlen, hvals⟩ :=
    c2_interpolation_redistribution.2.1 docScenarioB 0 (by decide) 0 (by decide)
      _ (by decide) rfl (by decide)
  have hk2 : 1 < ws2.length := by
    rw [hlen]
    decide
  have h1 := hvals 1 (by decide) hk2
  refine ⟨ws2, ⟨hi2, hj2, hsome⟩, by simpa using hlen, hk2, ?_, ?_⟩
  · rw [h1.1]
    show interpStart 400 1600 3 1 = 800
    rw [interpStart_eval 400 1600 3 1 (by norm_num)]
    norm_num
  · rw [h1.2.1]
    show interpEnd 400 1600 3 1 = 1200
    rw [interpEnd_eval 400 1600 3 1 (by norm_num)]
    norm_num

/-! ## C10: ordering of the interpolation stages -/

/-- C10 (amended): the fused walk of cleanupTimingData is the composition of
three whole-document passes applied top-down, lines first, then words, then
chars, followed by text clearing.  Children are therefore distributed inside
bounds their parents may already have received in the same pass. -/
theorem c10_top_down_staged (d : Doc) :
    cleanupTimingData d =
      clearTextsDoc (charStageDoc (wordStageDoc (lineStageDoc d))) := by
  unfold cleanupTimingData
  congr 1
  unfold interpDoc charStageDoc wordStageDoc lineStageDoc
  simp only [List.map_map]
  congr 1
  apply List.map_congr_left
  intro b _
  simp only [Function.comp_apply]
  unfold cleanupBlock
  simp only [List.map_map]
  congr 1

/-- The block of the ordering counterexample: recorded bounds 1000 to 3000,
a first line recorded at 1200 to 1800 whose words are a strict mix, and a
second untimed line, so that the lines stage rewrites the first line before
its words are distributed. -/
def docOrdering : Doc :=
  { blocks := [{ text := "", start := 1000, end_ := 3000, voice := 1, position := "",
                 lines := [{ text := "a b", start := 1200, end_ := 1800, voice := 1,
                             position := "",
                             words := some
                               [{ text := "a", start := 1300, end_ := 1500, voice := 1,
                                  position := "", chars := none },
                                { text := "b", start := 0, end_ := 0, voice := 0,
                                  position := "", chars := none }] },
                           { text := "c", start := 0, end_ := 0, voice := 0,
                             position := "", words := none }] }] }

/-- C10 counterexample: on docOrdering the source pass distributes the words
of the first line inside the freshly interpolated line bounds 1000 to 2000,
giving word starts 1000 and 1500, while the bottom-up order the claim
describes distributes them inside the recorded bounds 1200 to 1800, giving
word starts 1200 and 1500 with different ends; the two passes disagree. -/
theorem c10_counterexample :
    ((cleanupTimingData docOrdering).blocks.map fun b => b.lines.map fun l =>
      (l.words.getD []).map fun w => (w.start, w.end_)) =
      [[[(1000, 1500), (1500, 2000)], []]] ∧
    ((specBottomUpCleanup docOrdering).blocks.map fun b => b.lines.map fun l =>
      (l.words.getD []).map fun w => (w.start, w.end_)) =
      [[[(1200, 1500), (1500, 1800)], []]] ∧
    cleanupTimingData docOrdering ≠ specBottomUpCleanup docOrdering := by
  have e1 : interpStart 1000 3000 2 0 = 1000 := by
    rw [interpStart_eval _ _ _ _ (by norm_num)]
    decide
  have e2 : interpEnd 1000 3000 2 0 = 2000 := by
    rw [interpEnd_eval _ _ _ _ (by norm_num)]
    decide
  have e3 : interpStart 1000 3000 2 1 = 2000 := by
    rw [interpStart_eval _ _ _ _ (by norm_num)]
    decide
  have e4 : interpEnd 1000 3000 2 1 = 3000 := by
    rw [interpEnd_eval _ _ _ _ (by norm_num)]
    decide
  have f1 : interpStart 1000 2000 2 0 = 1000 := by
    rw [interpStart_eval _ _ _ _ (by norm_num)]
    decide
  have f2 : interpEnd 1000 2000 2 0 = 1500 := by
    rw [interpEnd_eval _ _ _ _ (by norm_num)]
    decide
  have f3 : interpStart 1000 2000 2 1 = 1500 := by
    rw [interpStart_eval _ _ _ _ (by norm_num)]
    decide
  have f4 : interpEnd 1000 2000 2 1 = 2000 := by
    rw [interpEnd_eval _ _ _ _ (by norm_num)]
    decide
  have g1 : interpStart 1200 1800 2 0 = 1200 := by
    rw [interpStart_eval _ _ _ _ (by norm_num)]
    decide
  have g2 : interpEnd 1200 1800 2 0 = 1500 := by
    rw [interpEnd_eval _ _ _ _ (by norm_num)]
    decide
  have g3 : interpStart 1200 1800 2 1 = 1500 := by
    rw [interpStart_eval _ _ _ _ (by norm_num)]
    decide
  have g4 : interpEnd 1200 1800 2 1 = 1800 := by
    rw [interpEnd_eval _ _ _ _ (by norm_num)]
    decide
  have h1 : ((cleanupTimingData docOrdering).blocks.map fun b => b.lines.map fun l =>
      (l.words.getD []).map fun w => (w.start, w.end_)) =
      [[[(1000, 1500), (1500, 2000)], []]] := by
    simp [cleanupTimingData, interpDoc, clearTextsDoc, cleanupBlock, cleanupLine,
      interpWords, interpWordsArr, interpLinesArr, interpChars, clearBlockText,
      clearLineText, clearWordText, timedTok, jsOrV, docOrdering,
      e1, e2, e3, e4, f1, f2, f3, f4]
  have h2 : ((specBottomUpCleanup docOrdering).blocks.map fun b => b.lines.map fun l =>
      (l.words.getD []).map fun w => (w.start, w.end_)) =
      [[[(1200, 1500), (1500, 1800)], []]] := by
    simp [specBottomUpCleanup, lineStageDoc, wordStageDoc, charStageDoc,
      clearTextsDoc, interpWords, interpWordsArr, interpLinesArr, interpChars,
      clearBlockText, clearLineText, clearWordText, timedTok, jsOrV, docOrdering,
      e1, e2, e3, e4, g1, g2, g3, g4]
  refine ⟨h1, h2, ?_⟩
  intro heq
  rw [heq, h2] at h1
  simp at h1

/-! ## C9: node removal -/

def wordShape (w : Word) : Option ℕ := w.chars.map List.length

def lineShape (l : Line) : Option (List (Option ℕ)) :=
  l.words.map fun ws => ws.map wordShape

def blockShape (b : Block) : List (Option (List (Option ℕ))) :=
  b.lines.map lineShape

/-- The tree shape of a document: per block the list of its lines, per line
the presence and length of its words array, per word the presence and length
of its chars array. -/
def docShape (d : Doc) : List (List (Option (List (Option ℕ)))) :=
  d.blocks.map blockShape

theorem listModify_length {α : Type} (f : α → α) :
    ∀ (i : ℕ) (xs : List α), (listModify f i xs).length = xs.length := by
  intro i xs
  induction xs generalizing i with
  | nil => cases i <;> rfl
  | cons x xs ih =>
    cases i with
    | zero => simp [listModify]
    | succ n => simp [listModify, ih]

theorem listModify_map {α β : Type} (f : α → α) (g : α → β)
    (h : ∀ x, g (f x) = g x) :
    ∀ (i : ℕ) (xs : List α), (listModify f i xs).map g = xs.map g := by
  intro i xs
  induction xs generalizing i with
  | nil => cases i <;> rfl
  | cons x xs ih =>
    cases i with
    | zero => simp [listModify, h]
    | succ n => simp [listModify, ih]

theorem updateBlockFromLines_lines (b : Block) :
    (updateBlockFromLines b).lines = b.lines := by
  cases hf : b.lines.filter (fun l => timedPos l.start l.end_) with
  | nil => rw [updateBlockFromLines_untimed b hf]
  | cons t ts => rw [updateBlockFromLines_timed b t ts hf]

theorem updateLineFromWords_words (l : Line) :
    (updateLineFromWords l).words = l.words := by
  cases hws : l.words with
  | none =>
    rw [(updateLineFromWords_untimed l).1 hws]
    exact hws
  | some ws =>
    cases hf : ws.filter (fun w => timedPos w.start w.end_) with
    | nil =>
      rw [(updateLineFromWords_untimed l).2 ws hws hf]
      exact hws
    | cons t ts =>
      rw [updateLineFromWords_timed l ws t ts hws hf]
      exact hws

theorem updateWordFromChars_chars (w : Word) :
    (updateWordFromChars w).chars = w.chars := by
  cases hcs : w.chars with
  | none =>
    rw [(updateWordFromChars_untimed w).1 hcs]
    exact hcs
  | some cs =>
    cases hf : cs.filter (fun c => timedPos c.start c.end_) with
    | nil =>
      rw [(updateWordFromChars_untimed w).2 cs hcs hf]
      exact hcs
    | cons t ts =>
      rw [updateWordFromChars_timed w cs t ts hcs hf]
      exact hcs

theorem lineShape_updateLineFromWords (l : Line) :
    lineShape (updateLineFromWords l) = lineShape l := by
  unfold lineShape
  rw [updateLineFromWords_words]

theorem blockShape_updateBlockFromLines (b : Block) :
    blockShape (updateBlockFromLines b) = blockShape b := by
  unfold blockShape
  rw [updateBlockFromLines_lines]

theorem docShape_updateBlockTimingFromLines (d : Doc) :
    docShape (updateBlockTimingFromLines d) = docShape d := by
  unfold docShape updateBlockTimingFromLines
  simp only [List.map_map]
  apply List.map_congr_left
  intro b _
  exact blockShape_updateBlockFromLines b

theorem docShape_updateParentTimingFromWords (d : Doc) :
    docShape (updateParentTimingFromWords d) = docShape d := by
  unfold updateParentTimingFromWords
  rw [docShape_updateBlockTimingFromLines]
  unfold docShape
  simp only [List.map_map]
  apply List.map_congr_left
  intro b _
  simp only [Function.comp_apply]
  unfold blockShape
  simp only [List.map_map]
  apply List.map_congr_left
  intro l _
  exact lineShape_updateLineFromWords l

theorem docShape_updateParentTimingFromChars (d : Doc) :
    docShape (updateParentTimingFromChars d) = docShape d := by
  unfold updateParentTimingFromChars
  rw [docShape_updateParentTimingFromWords]
  unfold docShape
  simp only [List.map_map]
  apply List.map_congr_left
  intro b _
  simp only [Function.comp_apply]
  unfold blockShape
  simp only [List.map_map]
  apply List.map_congr_left
  intro l _
  simp only [Function.comp_apply]
  have hmap : ∀ w2, wordShape (updateWordFromChars w2) = wordShape w2 := by
    intro w2
    unfold wordShape
    rw [updateWordFromChars_chars]
  cases hws : l.words with
  | none => simp [lineShape, hws]
  | some ws => simp [lineShape, hws, List.map_map, Function.comp, hmap]

theorem docShape_modifyFlatLine (f : Line → Line)
    (hf : ∀ l, lineShape (f l) = lineShape l) (idx : ℕ) (d : Doc) :
    docShape (modifyFlatLine f idx d) = docShape d := by
  unfold docShape modifyFlatLine
  induction d.blocks generalizing idx with
  | nil => rfl
  | cons b bs ih =>
    simp only [modifyFlatLine.go]
    by_cases h : idx < b.lines.length
    · rw [if_pos h]
      simp only [List.map_cons]
      congr 1
      unfold blockShape
      exact listModify_map f lineShape hf idx b.lines
    · rw [if_neg h]
      simp only [List.map_cons]
      congr 1
      exact ih (idx - b.lines.length)

theorem docShape_modifyFlatWord (f : Word → Word)
    (hf : ∀ w, wordShape (f w) = wordShape w) (idx : ℕ) (d : Doc) :
    docShape (modifyFlatWord f idx d) = docShape d := by
  have hline : ∀ (i : ℕ) (ls : List Line),
      (modifyFlatWord.goLine f i ls).map lineShape = ls.map lineShape := by
    intro i ls
    induction ls generalizing i with
    | nil => rfl
    | cons l ls ih =>
      simp only [modifyFlatWord.goLine]
      by_cases h : i < (l.words.getD []).length
      · rw [if_pos h]
        simp only [List.map_cons]
        congr 1
        cases hws : l.words with
        | none =>
          rw [hws] at h
          simp at h
        | some ws =>
          simp [lineShape, hws, listModify_map f wordShape hf]
      · rw [if_neg h]
        simp only [List.map_cons]
        congr 1
        exact ih (i - (l.words.getD []).length)
  unfold docShape modifyFlatWord
  induction d.blocks generalizing idx with
  | nil => rfl
  | cons b bs ih =>
    simp only [modifyFlatWord.go]
    by_cases h : idx < (b.lines.flatMap fun l => l.words.getD []).length
    · rw [if_pos h]
      simp only [List.map_cons]
      congr 1
      unfold blockShape
      exact hline idx b.lines
    · rw [if_neg h]
      simp only [List.map_cons]
      congr 1
      exact ih _

theorem docShape_modifyFlatChar (f : CharTok → CharTok)
    (idx : ℕ) (d : Doc) :
    docShape (modifyFlatChar f idx d) = docShape d := by
  have hword : ∀ (i : ℕ) (ws : List Word),
      (modifyFlatChar.goWord f i ws).map wordShape = ws.map wordShape := by
    intro i ws
    induction ws generalizing i with
    | nil => rfl
    | cons w ws ih =>
      simp only [modifyFlatChar.goWord]
      by_cases h : i < (w.chars.getD []).length
      · rw [if_pos h]
        simp only [List.map_cons]
        congr 1
        cases hcs : w.chars with
        | none =>
          rw [hcs] at h
          simp at h
        | some cs =>
          simp [wordShape, hcs, listModify_length]
      · rw [if_neg h]
        simp only [List.map_cons]
        congr 1
        exact ih (i - (w.chars.getD []).length)
  have hline : ∀ (i : ℕ) (ls : List Line),
      (modifyFlatChar.goLine f i ls).map lineShape = ls.map lineShape := by
    intro i ls
    induction ls generalizing i with
    | nil => rfl
    | cons l ls ih =>
      cases hws : l.words with
      | none =>
        simp only [modifyFlatChar.goLine, hws]
        simp only [List.map_cons]
        congr 1
        exact ih i
      | some ws =>
        simp only [modifyFlatChar.goLine, hws]
        by_cases h : i < (ws.flatMap fun w => w.chars.getD []).length
        · rw [if_pos h]
          simp only [List.map_cons]
          congr 1
          simp only [lineShape, hws]
          simp [hword i ws]
        · rw [if_neg h]
          simp only [List.map_cons]
          congr 1
          exact ih (i - (ws.flatMap fun w => w.chars.getD []).length)
  unfold docShape modifyFlatChar
  induction d.blocks generalizing idx with
  | nil => rfl
  | cons b bs ih =>
    simp only [modifyFlatChar.go]
    by_cases h : idx < (b.lines.flatMap fun l =>
        match l.words with
        | some ws => ws.flatMap fun w => w.chars.getD []
        | none => []).length
    · rw [if_pos h]
      simp only [List.map_cons]
      congr 1
      unfold blockShape
      exact hline idx b.lines
    · rw [if_neg h]
      simp only [List.map_cons]
      congr 1
      exact ih _

theorem interpWordsArr_none_iff (ps pe : ℤ) (pv : ℕ) (ws : List Word) :
    interpWordsArr ps pe pv ws = none ↔ timedWordsCount ws = 0 := by
  by_cases h0 : timedWordsCount ws = 0
  · rw [interpWordsArr_zero ps pe pv ws h0]
    simp [h0]
  · by_cases h1 : timedWordsCount ws < ws.length
    · rw [interpWordsArr_mixed ps pe pv ws ⟨Nat.pos_of_ne_zero h0, h1⟩]
      simp [h0]
    · rw [interpWordsArr_full ps pe pv ws h0 h1]
      simp [h0]

theorem interpCharsArr_none_iff (ps pe : ℤ) (wv lv : ℕ) (cs : List CharTok) :
    interpCharsArr ps pe wv lv cs = none ↔ timedCharsCount cs = 0 := by
  by_cases h0 : timedCharsCount cs = 0
  · rw [interpCharsArr_zero ps pe wv lv cs h0]
    simp [h0]
  · by_cases h1 : timedCharsCount cs < cs.length
    · rw [interpCharsArr_mixed ps pe wv lv cs ⟨Nat.pos_of_ne_zero h0, h1⟩]
      simp [h0]
    · rw [interpCharsArr_full ps pe wv lv cs h0 h1]
      simp [h0]

theorem interpWordsArr_some_chars (ps pe : ℤ) (pv : ℕ) (ws ws1 : List Word)
    (h : interpWordsArr ps pe pv ws = some ws1) :
    ws1.length = ws.length ∧
    ∀ k (hk : k < ws.length) (hk2 : k < ws1.length), ws1[k].chars = ws[k].chars := by
  by_cases h0 : timedWordsCount ws = 0
  · rw [interpWordsArr_zero ps pe pv ws h0] at h
    cases h
  · by_cases h1 : timedWordsCount ws < ws.length
    · rw [interpWordsArr_mixed ps pe pv ws ⟨Nat.pos_of_ne_zero h0, h1⟩,
        Option.some.injEq] at h
      subst h
      refine ⟨by simp, fun k hk hk2 => ?_⟩
      simp
    · rw [interpWordsArr_full ps pe pv ws h0 h1, Option.some.injEq] at h
      subst h
      exact ⟨rfl, fun k hk hk2 => rfl⟩

theorem interpChars_chars_presence (lv : ℕ) (w : Word) :
    (interpChars lv w).chars = none ↔
      (w.chars = none ∨ timedCharsCount (w.chars.getD []) = 0) := by
  cases hcs : w.chars with
  | none =>
    unfold interpChars
    simp [hcs]
  | some cs =>
    unfold interpChars
    simp only [hcs, Option.getD_some]
    simp [interpCharsArr_none_iff]

theorem cleanupLine_words_presence (l : Line) :
    (cleanupLine l).words = none ↔
      (l.words = none ∨ timedWordsCount (l.words.getD []) = 0) := by
  cases hws : l.words with
  | none => simp [cleanupLine_words_none l hws, hws]
  | some ws =>
    cases harr : interpWordsArr l.start l.end_ l.voice ws with
    | none =>
      rw [cleanupLine_of_arr_none l ws hws harr]
      simp only [hws, Option.getD_some]
      simp [(interpWordsArr_none_iff _ _ _ _).mp harr]
    | some ws1 =>
      rw [cleanupLine_of_arr_some l ws ws1 hws harr]
      have : timedWordsCount ws ≠ 0 := by
        intro h0
        rw [(interpWordsArr_none_iff l.start l.end_ l.voice ws).mpr h0] at harr
        cases harr
      simp only [hws, Option.getD_some]
      simp [this]

theorem interpLinesArr_length (ps pe : ℤ) (pv : ℕ) (ls : List Line) :
    (interpLinesArr ps pe pv ls).length = ls.length := by
  by_cases h : strictMix (timedLinesCount ls) ls.length
  · rw [interpLinesArr_mixed ps pe pv ls h]
    simp
  · rw [interpLinesArr_nomix ps pe pv ls h]

theorem interpLinesArr_get_words (ps pe : ℤ) (pv : ℕ) (ls : List Line) (j : ℕ)
    (hj : j < ls.length) (hj2 : j < (interpLinesArr ps pe pv ls).length) :
    (interpLinesArr ps pe pv ls)[j].words = ls[j].words := by
  by_cases h : strictMix (timedLinesCount ls) ls.length
  · rw [List.getElem_of_eq (interpLinesArr_mixed ps pe pv ls h) hj2]
    simp
  · rw [List.getElem_of_eq (interpLinesArr_nomix ps pe pv ls h) hj2]

/-- C9: the cleanup pass deletes a words array exactly when none of its
members carries a non-sentinel pair, and a chars array of a surviving word
exactly when none of its members does; the bubble-up propagation functions
and recordTimestamp never change the tree shape, so the cleanup pass is the
only operation that removes nodes. -/
theorem c9_node_removal :
    (∀ (d : Doc) (i : ℕ) (hi : i < d.blocks.length) (j : ℕ)
       (hj : j < d.blocks[i].lines.length),
      ∃ (hi2 : i < (cleanupTimingData d).blocks.length)
        (hj2 : j < (cleanupTimingData d).blocks[i].lines.length),
        ((cleanupTimingData d).blocks[i].lines[j].words = none ↔
          (d.blocks[i].lines[j].words = none ∨
           timedWordsCount (d.blocks[i].lines[j].words.getD []) = 0)) ∧
        (∀ ws, d.blocks[i].lines[j].words = some ws →
          timedWordsCount ws ≠ 0 →
          ∃ ws2, (cleanupTimingData d).blocks[i].lines[j].words = some ws2 ∧
            ws2.length = ws.length ∧
            ∀ k (hk : k < ws.length) (hk2 : k < ws2.length),
              (ws2[k].chars = none ↔
                (ws[k].chars = none ∨ timedCharsCount (ws[k].chars.getD []) = 0)))) ∧
    (∀ d : Doc, docShape (updateBlockTimingFromLines d) = docShape d) ∧
    (∀ d : Doc, docShape (updateParentTimingFromWords d) = docShape d) ∧
    (∀ d : Doc, docShape (updateParentTimingFromChars d) = docShape d) ∧
    (∀ (mode : RecMode) (idx : ℕ) (v : ℕ) (ts : ℚ) (ty : TType) (d d2 : Doc),
      recordTimestamp mode idx v ts ty d = .ok d2 → docShape d2 = docShape d) := by
  refine ⟨?_, docShape_updateBlockTimingFromLines,
    docShape_updateParentTimingFromWords, docShape_updateParentTimingFromChars, ?_⟩
  · intro d i hi j hj
    obtain ⟨hlenB, hget⟩ := cleanup_blocks_get d
    have hi2 : i < (cleanupTimingData d).blocks.length := by omega
    have hlines : (cleanupTimingData d).blocks[i].lines =
        ((interpLinesArr d.blocks[i].start d.blocks[i].end_ d.blocks[i].voice
          d.blocks[i].lines).map cleanupLine).map clearLineText := by
      rw [hget i hi hi2, clearBlockText_lines, cleanupBlock_lines]
    have hlen2 : (cleanupTimingData d).blocks[i].lines.length =
        d.blocks[i].lines.length := by
      rw [hlines]
      simp [interpLinesArr_length]
    have hj2 : j < (cleanupTimingData d).blocks[i].lines.length := by omega
    have hjArr : j < (interpLinesArr d.blocks[i].start d.blocks[i].end_
        d.blocks[i].voice d.blocks[i].lines).length := by
      rw [interpLinesArr_length]
      exact hj
    have hline : (cleanupTimingData d).blocks[i].lines[j] =
        clearLineText (cleanupLine (interpLinesArr d.blocks[i].start d.blocks[i].end_
          d.blocks[i].voice d.blocks[i].lines)[j]) := by
      conv_lhs => rw [List.getElem_of_eq hlines hj2]
      simp
    have hwordsEq : (interpLinesArr d.blocks[i].start d.blocks[i].end_
        d.blocks[i].voice d.blocks[i].lines)[j].words = d.blocks[i].lines[j].words :=
      interpLinesArr_get_words _ _ _ _ j hj hjArr
    refine ⟨hi2, hj2, ?_, ?_⟩
    · rw [hline, clearLineText_words, Option.map_eq_none',
        cleanupLine_words_presence, hwordsEq]
    · intro ws hws hnz
      have hws2 : (interpLinesArr d.blocks[i].start d.blocks[i].end_
          d.blocks[i].voice d.blocks[i].lines)[j].words = some ws := by
        rw [hwordsEq, hws]
      cases harr : interpWordsArr
          (interpLinesArr d.blocks[i].start d.blocks[i].end_ d.blocks[i].voice
            d.blocks[i].lines)[j].start
          (interpLinesArr d.blocks[i].start d.blocks[i].end_ d.blocks[i].voice
            d.blocks[i].lines)[j].end_
          (interpLinesArr d.blocks[i].start d.blocks[i].end_ d.blocks[i].voice
            d.blocks[i].lines)[j].voice ws with
      | none =>
        rw [interpWordsArr_none_iff] at harr
        exact absurd harr hnz
      | some ws1 =>
        obtain ⟨hlen1, hchars1⟩ := interpWordsArr_some_chars _ _ _ _ _ harr
        have hcl := cleanupLine_of_arr_some _ ws ws1 hws2 harr
        rw [hline, clearLineText_words, hcl]
        refine ⟨(((ws1.map (interpChars (interpLinesArr d.blocks[i].start
            d.blocks[i].end_ d.blocks[i].voice d.blocks[i].lines)[j].voice)).map
            clearWordText)), by simp, by simp [hlen1], ?_⟩
        intro k hk hk2
        simp only [List.getElem_map]
        rw [(clearWordText_scalars _).2.2.2, interpChars_chars_presence,
          hchars1 k hk (by omega)]
  · intro mode idx v ts ty d d2 hok
    simp only [recordTimestamp] at hok
    cases htok : (getTokensByMode mode d)[idx]? with
    | none =>
      simp only [htok] at hok
      cases hok
    | some tok =>
      simp only [htok] at hok
      by_cases hsp : isSpaceToken tok = true
      · rw [if_pos hsp] at hok
        cases hok
        rfl
      · rw [if_neg hsp] at hok
        have hrecB : ∀ b, blockShape (recBlock ty (jsRound (ts * 1000)) v b) =
            blockShape b := by
          intro b
          cases ty <;> rfl
        have hrecL : ∀ l, lineShape (recLine ty (jsRound (ts * 1000)) v l) =
            lineShape l := by
          intro l
          cases ty <;> rfl
        have hrecW : ∀ w, wordShape (recWord ty (jsRound (ts * 1000)) v w) =
            wordShape w := by
          intro w
          cases ty <;> rfl
        cases mode with
        | blocks =>
          rw [Except.ok.injEq] at hok
          subst hok
          by_cases hidx : idx < d.blocks.length
          · rw [if_pos hidx]
            unfold docShape
            exact listModify_map _ blockShape hrecB idx d.blocks
          · rw [if_neg hidx]
        | lines =>
          rw [Except.ok.injEq] at hok
          subst hok
          by_cases hidx : idx < (flatLines d).length
          · rw [if_pos hidx, docShape_updateBlockTimingFromLines,
              docShape_modifyFlatLine _ hrecL]
          · rw [if_neg hidx]
        | words =>
          rw [Except.ok.injEq] at hok
          subst hok
          by_cases hidx : idx < (flatWords d).length
          · rw [if_pos hidx, docShape_updateParentTimingFromWords,
              docShape_modifyFlatWord _ hrecW]
          · rw [if_neg hidx]
        | chars =>
          rw [Except.ok.injEq] at hok
          subst hok
          by_cases hidx : idx < (flatChars d).length
          · rw [if_pos hidx, docShape_updateParentTimingFromChars,
              docShape_modifyFlatChar]
          · rw [if_neg hidx]

/-- A one-block document with no lines, for exercising recordTimestamp. -/
def docRecDemo : Doc :=
  { blocks := [{ text := "x", start := 0, end_ := 0, voice := 1, position := "",
                 lines := [] }] }

/-- docRecDemo after recording a start stamp of five seconds on block 0. -/
def docRecDemoOut : Doc :=
  { blocks := [{ text := "x", start := 5000, end_ := 0, voice := 1, position := "",
                 lines := [] }] }

/-- C9 witness: recording a start stamp on the only block of docRecDemo
returns a document with the same shape. -/
theorem c9_node_removal_witness :
    docShape docRecDemoOut = docShape docRecDemo := by
  have hjs : jsRound ((5 : ℚ) * 1000) = 5000 :=
    jsRound_eq_of _ 5000 (by norm_num) (by norm_num)
  have hrec : recordTimestamp .blocks 0 1 5 .start docRecDemo = .ok docRecDemoOut := by
    have hint : String.intercalate "\n" ([] : List String) = "" := rfl
    simp [recordTimestamp, docRecDemo, docRecDemoOut, getTokensByMode, isSpaceToken,
      listModify, recBlock, hjs, hint]
    decide
  exact c9_node_removal.2.2.2.2 .blocks 0 1 5 .start docRecDemo docRecDemoOut hrec

/-! ## C6: linear timing generation -/

/-- The chars array of a playback word, empty when absent. -/
def charsOf (w : PWord) : List PChar := w.chars.getD []

/-- Sum of the word text lengths of a word list. -/
def wsLen (ws : List PWord) : ℕ := (ws.map fun w => w.text.length).sum

/-- Sum of the word text lengths of a line list. -/
def lsLen (ls : List PLine) : ℕ := (ls.map fun l => wsLen l.words).sum

/-- Sum of the word text lengths of a block list. -/
def bsLen (bs : List PBlock) : ℕ := (bs.map fun b => lsLen b.lines).sum

theorem wsLen_cons (w : PWord) (ws : List PWord) :
    wsLen (w :: ws) = w.text.length + wsLen ws := by
  simp [wsLen]

theorem lsLen_cons (l : PLine) (ls : List PLine) :
    lsLen (l :: ls) = wsLen l.words + lsLen ls := by
  simp [lsLen]

theorem bsLen_cons (b : PBlock) (bs : List PBlock) :
    bsLen (b :: bs) = lsLen b.lines + bsLen bs := by
  simp [bsLen]

theorem foldl_words_len (ws : List PWord) (a : ℕ) :
    ws.foldl (fun s w => s + w.text.length) a = a + wsLen ws := by
  induction ws generalizing a with
  | nil => simp [wsLen]
  | cons w ws ih =>
    rw [List.foldl_cons, ih, wsLen_cons]
    omega

theorem foldl_lines_len (ls : List PLine) (a : ℕ) :
    ls.foldl (fun s l => l.words.foldl (fun t w => t + w.text.length) s) a =
      a + lsLen ls := by
  induction ls generalizing a with
  | nil => simp [lsLen]
  | cons l ls ih =>
    rw [List.foldl_cons, foldl_words_len, ih, lsLen_cons]
    omega

theorem foldl_blocks_len (bs : List PBlock) (a : ℕ) :
    bs.foldl (fun s b =>
      b.lines.foldl (fun u l => l.words.foldl (fun t w => t + w.text.length) u) s) a =
      a + bsLen bs := by
  induction bs generalizing a with
  | nil => simp [bsLen]
  | cons b bs ih =>
    rw [List.foldl_cons, foldl_lines_len, ih, bsLen_cons]
    omega

theorem totalCharsP_eq (d : PDoc) : totalCharsP d = bsLen d.blocks := by
  unfold totalCharsP
  rw [foldl_blocks_len]
  omega

/-- The char list cs carries the linear stamps of the generator starting at
running time t with per-character duration m. -/
def stampedFrom (m t : ℚ) (cs : List PChar) : Prop :=
  ∀ k (hk : k < cs.length), cs[k].start = jsRound (t + (k : ℚ) * m) ∧
    cs[k].end_ = jsRound (t + ((k : ℚ) + 1) * m)

theorem stampedFrom_nil (m t : ℚ) : stampedFrom m t [] := by
  intro k hk
  simp at hk

theorem stampedFrom_append {m t : ℚ} {cs1 cs2 : List PChar}
    (h1 : stampedFrom m t cs1)
    (h2 : stampedFrom m (t + (cs1.length : ℚ) * m) cs2) :
    stampedFrom m t (cs1 ++ cs2) := by
  intro k hk
  rw [List.length_append] at hk
  by_cases hlt : k < cs1.length
  · rw [List.getElem_append_left hlt]
    exact h1 k hlt
  · push_neg at hlt
    rw [List.getElem_append_right hlt]
    obtain ⟨hs, he⟩ := h2 (k - cs1.length) (by omega)
    have hc : ((k - cs1.length : ℕ) : ℚ) = (k : ℚ) - (cs1.length : ℚ) := by
      rw [Nat.cast_sub hlt]
    constructor
    · rw [hs, hc]
      congr 1
      ring
    · rw [he, hc]
      congr 1
      ring

theorem genWord_snd (m t : ℚ) (w : PWord) :
    (genWord m t w).2 = t + (w.text.length : ℚ) * m := rfl

theorem genWord_chars (m t : ℚ) (w : PWord) :
    ∃ cl, (genWord m t w).1.chars = some cl ∧ cl.length = w.text.length ∧
      stampedFrom m t cl := by
  refine ⟨_, rfl, ?_, ?_⟩
  · rw [List.length_mapIdx]
    rfl
  · intro k hk
    rw [List.length_mapIdx] at hk
    have hk2 : k < w.text.length := hk
    have hlen : ((w.text.length : ℕ) : ℚ) ≠ 0 := Nat.cast_ne_zero.mpr (by omega)
    have hdiv : ((w.text.length : ℚ) * m) / (w.text.length : ℚ) = m :=
      mul_div_cancel_left₀ m hlen
    refine ⟨?_, ?_⟩
    · simp only [List.getElem_mapIdx]
      rw [hdiv]
    · simp only [List.getElem_mapIdx]
      rw [hdiv]

theorem genWords_snd (m : ℚ) (ws : List PWord) :
    ∀ t : ℚ, (genWords m t ws).2 = t + (wsLen ws : ℚ) * m := by
  induction ws with
  | nil =>
    intro t
    simp [genWords, wsLen]
  | cons w ws ih =>
    intro t
    have hstep : (genWords m t (w :: ws)).2 = (genWords m (genWord m t w).2 ws).2 := rfl
    rw [hstep, ih, genWord_snd, wsLen_cons]
    push_cast
    ring

theorem genWords_chars (m : ℚ) (ws : List PWord) :
    ∀ t : ℚ,
      ((genWords m t ws).1.flatMap charsOf).length = wsLen ws ∧
      stampedFrom m t ((genWords m t ws).1.flatMap charsOf) := by
  induction ws with
  | nil =>
    intro t
    constructor
    · simp [genWords, wsLen]
    · have : (genWords m t ([] : List PWord)).1.flatMap charsOf = [] := rfl
      rw [this]
      exact stampedFrom_nil m t
  | cons w ws ih =>
    intro t
    obtain ⟨cl, hcl, hlen, hst⟩ := genWord_chars m t w
    obtain ⟨ihlen, ihst⟩ := ih (genWord m t w).2
    have hcons : (genWords m t (w :: ws)).1 =
        (genWord m t w).1 :: (genWords m (genWord m t w).2 ws).1 := rfl
    have hflat : (genWords m t (w :: ws)).1.flatMap charsOf =
        cl ++ (genWords m (genWord m t w).2 ws).1.flatMap charsOf := by
      rw [hcons, List.flatMap_cons]
      simp [charsOf, hcl]
    constructor
    · rw [hflat, List.length_append, hlen, ihlen, wsLen_cons]
    · rw [hflat]
      apply stampedFrom_append hst
      have hT : (genWord m t w).2 = t + (cl.length : ℚ) * m := by
        rw [genWord_snd, hlen]
      rw [← hT]
      exact ihst

theorem genLine_words (m t : ℚ) (l : PLine) :
    (genLine m t l).1.words = (genWords m t l.words).1 := rfl

theorem genLine_snd (m t : ℚ) (l : PLine) :
    (genLine m t l).2 = (genWords m t l.words).2 := rfl

theorem genLines_snd (m : ℚ) (ls : List PLine) :
    ∀ t : ℚ, (genLines m t ls).2 = t + (lsLen ls : ℚ) * m := by
  induction ls with
  | nil =>
    intro t
    simp [genLines, lsLen]
  | cons l ls ih =>
    intro t
    have hstep : (genLines m t (l :: ls)).2 = (genLines m (genLine m t l).2 ls).2 := rfl
    rw [hstep, ih, genLine_snd, genWords_snd, lsLen_cons]
    push_cast
    ring

theorem genLines_chars (m : ℚ) (ls : List PLine) :
    ∀ t : ℚ,
      (((genLines m t ls).1.flatMap fun l => l.words.flatMap charsOf).length = lsLen ls) ∧
      stampedFrom m t ((genLines m t ls).1.flatMap fun l => l.words.flatMap charsOf) := by
  induction ls with
  | nil =>
    intro t
    constructor
    · simp [genLines, lsLen]
    · have : ((genLines m t ([] : List PLine)).1.flatMap fun l =>
          l.words.flatMap charsOf) = [] := rfl
      rw [this]
      exact stampedFrom_nil m t
  | cons l ls ih =>
    intro t
    obtain ⟨wlen, wst⟩ := genWords_chars m l.words t
    obtain ⟨ihlen, ihst⟩ := ih (genLine m t l).2
    have hcons : (genLines m t (l :: ls)).1 =
        (genLine m t l).1 :: (genLines m (genLine m t l).2 ls).1 := rfl
    have hflat : ((genLines m t (l :: ls)).1.flatMap fun l2 => l2.words.flatMap charsOf) =
        (genWords m t l.words).1.flatMap charsOf ++
          ((genLines m (genLine m t l).2 ls).1.flatMap fun l2 =>
            l2.words.flatMap charsOf) := by
      rw [hcons, List.flatMap_cons, genLine_words]
    constructor
    · rw [hflat, List.length_append, wlen, ihlen, lsLen_cons]
    · rw [hflat]
      apply stampedFrom_append wst
      have hT : (genLine m t l).2 =
          t + (((genWords m t l.words).1.flatMap charsOf).length : ℚ) * m := by
        rw [genLine_snd, genWords_snd, wlen]
      rw [← hT]
      exact ihst

theorem genBlock_lines (m t : ℚ) (b : PBlock) :
    (genBlock m t b).1.lines = (genLines m t b.lines).1 := rfl

theorem genBlock_snd (m t : ℚ) (b : PBlock) :
    (genBlock m t b).2 = (genLines m t b.lines).2 := rfl

theorem genBlocks_chars (m : ℚ) (bs : List PBlock) :
    ∀ t : ℚ,
      (((genBlocks m t bs).1.flatMap fun b =>
        b.lines.flatMap fun l => l.words.flatMap charsOf).length = bsLen bs) ∧
      stampedFrom m t ((genBlocks m t bs).1.flatMap fun b =>
        b.lines.flatMap fun l => l.words.flatMap charsOf) := by
  induction bs with
  | nil =>
    intro t
    constructor
    · simp [genBlocks, bsLen]
    · have : ((genBlocks m t ([] : List PBlock)).1.flatMap fun b =>
          b.lines.flatMap fun l => l.words.flatMap charsOf) = [] := rfl
      rw [this]
      exact stampedFrom_nil m t
  | cons b bs ih =>
    intro t
    obtain ⟨llen, lst⟩ := genLines_chars m b.lines t
    obtain ⟨ihlen, ihst⟩ := ih (genBlock m t b).2
    have hcons : (genBlocks m t (b :: bs)).1 =
        (genBlock m t b).1 :: (genBlocks m (genBlock m t b).2 bs).1 := rfl
    have hflat : ((genBlocks m t (b :: bs)).1.flatMap fun b2 =>
        b2.lines.flatMap fun l => l.words.flatMap charsOf) =
        ((genLines m t b.lines).1.flatMap fun l => l.words.flatMap charsOf) ++
          ((genBlocks m (genBlock m t b).2 bs).1.flatMap fun b2 =>
            b2.lines.flatMap fun l => l.words.flatMap charsOf) := by
      rw [hcons, List.flatMap_cons, genBlock_lines]
    constructor
    · rw [hflat, List.length_append, llen, ihlen, bsLen_cons]
    · rw [hflat]
      apply stampedFrom_append lst
      have hT : (genBlock m t b).2 =
          t + ((((genLines m t b.lines).1.flatMap fun l =>
            l.words.flatMap charsOf)).length : ℚ) * m := by
        rw [genBlock_snd, genLines_snd, llen]
      rw [← hT]
      exact ihst

/-- A word carries a chars array whose first member starts where the word
starts and whose last member ends where the word ends. -/
def wordSpanP (w : PWord) : Prop :=
  ∃ cl, w.chars = some cl ∧
    (∀ ch, cl.head? = some ch → w.start = ch.start) ∧
    (∀ cz, cl.getLast? = some cz → w.end_ = cz.end_)

/-- A line starts with its first word and ends with its last word, and all
its words span their chars. -/
def lineSpanP (l : PLine) : Prop :=
  (∀ wh, l.words.head? = some wh → l.start = wh.start) ∧
  (∀ wl, l.words.getLast? = some wl → l.end_ = wl.end_) ∧
  ∀ w ∈ l.words, wordSpanP w

/-- A block starts with its first line and ends with its last line, and all
its lines span their words. -/
def blockSpanP (b : PBlock) : Prop :=
  (∀ lh, b.lines.head? = some lh → b.start = lh.start) ∧
  (∀ ll, b.lines.getLast? = some ll → b.end_ = ll.end_) ∧
  ∀ l ∈ b.lines, lineSpanP l

/-- Every block of the list spans its descendants. -/
def spanOK (bs : List PBlock) : Prop := ∀ b ∈ bs, blockSpanP b

theorem genWord_span (m t : ℚ) (w : PWord) : wordSpanP (genWord m t w).1 := by
  obtain ⟨cl, hcl, hlen, hst⟩ := genWord_chars m t w
  refine ⟨cl, hcl, ?_, ?_⟩
  · intro ch hch
    cases cl with
    | nil => cases hch
    | cons c cs =>
      rw [List.head?_cons, Option.some.injEq] at hch
      subst hch
      have h0 := (hst 0 (by simp)).1
      simp only [List.getElem_cons_zero] at h0
      rw [show (genWord m t w).1.start = jsRound t from rfl, h0]
      congr 1
      push_cast
      ring
  · intro cz hcz
    rw [List.getLast?_eq_getElem?, List.getElem?_eq_some_iff] at hcz
    obtain ⟨hb, hcz⟩ := hcz
    have hpos : cl.length ≠ 0 := by omega
    have he := (hst (cl.length - 1) hb).2
    rw [hcz] at he
    rw [show (genWord m t w).1.end_ = jsRound (t + (w.text.length : ℚ) * m) from rfl, he]
    congr 1
    rw [← hlen]
    have h1 : (1 : ℕ) ≤ cl.length := by omega
    rw [Nat.cast_sub h1]
    push_cast
    ring

theorem genWords_span (m : ℚ) (ws : List PWord) :
    ∀ t : ℚ, ∀ w2 ∈ (genWords m t ws).1, wordSpanP w2 := by
  induction ws with
  | nil =>
    intro t w2 h
    simp [genWords] at h
  | cons w ws ih =>
    intro t w2 h
    rw [show (genWords m t (w :: ws)).1 =
        (genWord m t w).1 :: (genWords m (genWord m t w).2 ws).1 from rfl,
      List.mem_cons] at h
    rcases h with h | h
    · exact h ▸ genWord_span m t w
    · exact ih _ w2 h

theorem genWords_head_start (m : ℚ) (ws : List PWord) (t : ℚ) :
    ∀ wh, (genWords m t ws).1.head? = some wh → wh.start = jsRound t := by
  cases ws with
  | nil =>
    intro wh h
    simp [genWords] at h
  | cons w ws =>
    intro wh h
    rw [show (genWords m t (w :: ws)).1 =
        (genWord m t w).1 :: (genWords m (genWord m t w).2 ws).1 from rfl,
      List.head?_cons, Option.some.injEq] at h
    rw [← h]
    rfl

theorem genWords_last_end (m : ℚ) (ws : List PWord) :
    ∀ t : ℚ, ∀ wl, (genWords m t ws).1.getLast? = some wl →
      wl.end_ = jsRound ((genWords m t ws).2) := by
  induction ws with
  | nil =>
    intro t wl h
    simp [genWords] at h
  | cons w ws ih =>
    intro t wl h
    cases ws with
    | nil =>
      rw [show (genWords m t [w]).1 = [(genWord m t w).1] from rfl] at h
      simp only [List.getLast?_singleton, Option.some.injEq] at h
      rw [← h]
      rfl
    | cons w2 ws2 =>
      rw [show (genWords m t (w :: w2 :: ws2)).1 =
          (genWord m t w).1 :: (genWord m (genWord m t w).2 w2).1 ::
            (genWords m (genWord m (genWord m t w).2 w2).2 ws2).1 from rfl,
        List.getLast?_cons_cons] at h
      exact ih (genWord m t w).2 wl h

theorem genLine_span (m t : ℚ) (l : PLine) : lineSpanP (genLine m t l).1 := by
  refine ⟨?_, ?_, ?_⟩
  · intro wh h
    have := genWords_head_start m l.words t wh h
    rw [show (genLine m t l).1.start = jsRound t from rfl, this]
  · intro wl h
    have := genWords_last_end m l.words t wl h
    rw [show (genLine m t l).1.end_ = jsRound ((genWords m t l.words).2) from rfl, this]
  · exact genWords_span m l.words t

theorem genLines_span (m : ℚ) (ls : List PLine) :
    ∀ t : ℚ, ∀ l2 ∈ (genLines m t ls).1, lineSpanP l2 := by
  induction ls with
  | nil =>
    intro t l2 h
    simp [genLines] at h
  | cons l ls ih =>
    intro t l2 h
    rw [show (genLines m t (l :: ls)).1 =
        (genLine m t l).1 :: (genLines m (genLine m t l).2 ls).1 from rfl,
      List.mem_cons] at h
    rcases h with h | h
    · exact h ▸ genLine_span m t l
    · exact ih _ l2 h

theorem genLines_head_start (m : ℚ) (ls : List PLine) (t : ℚ) :
    ∀ lh, (genLines m t ls).1.head? = some lh → lh.start = jsRound t := by
  cases ls with
  | nil =>
    intro lh h
    simp [genLines] at h
  | cons l ls =>
    intro lh h
    rw [show (genLines m t (l :: ls)).1 =
        (genLine m t l).1 :: (genLines m (genLine m t l).2 ls).1 from rfl,
      List.head?_cons, Option.some.injEq] at h
    rw [← h]
    rfl

theorem genLines_last_end (m : ℚ) (ls : List PLine) :
    ∀ t : ℚ, ∀ ll, (genLines m t ls).1.getLast? = some ll →
      ll.end_ = jsRound ((genLines m t ls).2) := by
  induction ls with
  | nil =>
    intro t ll h
    simp [genLines] at h
  | cons l ls ih =>
    intro t ll h
    cases ls with
    | nil =>
      rw [show (genLines m t [l]).1 = [(genLine m t l).1] from rfl] at h
      simp only [List.getLast?_singleton, Option.some.injEq] at h
      rw [← h]
      rfl
    | cons l2 ls2 =>
      rw [show (genLines m t (l :: l2 :: ls2)).1 =
          (genLine m t l).1 :: (genLine m (genLine m t l).2 l2).1 ::
            (genLines m (genLine m (genLine m t l).2 l2).2 ls2).1 from rfl,
        List.getLast?_cons_cons] at h
      exact ih (genLine m t l).2 ll h

theorem genBlock_span (m t : ℚ) (b : PBlock) : blockSpanP (genBlock m t b).1 := by
  refine ⟨?_, ?_, ?_⟩
  · intro lh h
    have := genLines_head_start m b.lines t lh h
    rw [show (genBlock m t b).1.start = jsRound t from rfl, this]
  · intro ll h
    have := genLines_last_end m b.lines t ll h
    rw [show (genBlock m t b).1.end_ = jsRound ((genLines m t b.lines).2) from rfl, this]
  · exact genLines_span m b.lines t

theorem genBlocks_span (m : ℚ) (bs : List PBlock) :
    ∀ t : ℚ, ∀ b2 ∈ (genBlocks m t bs).1, blockSpanP b2 := by
  induction bs with
  | nil =>
    intro t b2 h
    simp [genBlocks] at h
  | cons b bs ih =>
    intro t b2 h
    rw [show (genBlocks m t (b :: bs)).1 =
        (genBlock m t b).1 :: (genBlocks m (genBlock m t b).2 bs).1 from rfl,
      List.mem_cons] at h
    rcases h with h | h
    · exact h ▸ genBlock_span m t b
    · exact ih _ b2 h

theorem generateLinearTiming_pos (ds : ℚ) (d : PDoc) (h0 : ds ≠ 0)
    (h1 : totalCharsP d ≠ 0) :
    generateLinearTiming ds d =
      { blocks := (genBlocks (ds * 1000 / (totalCharsP d : ℚ)) 0 d.blocks).1 } := by
  simp only [generateLinearTiming, if_neg h0, if_neg h1]

/-- First word of spec scenario C: three characters, no timing. -/
def wC1 : PWord :=
  { text := "abc", start := 0, end_ := 0, voice := 0, position := "", chars := none }

/-- Second word of spec scenario C: five characters, no timing. -/
def wC2 : PWord :=
  { text := "abcde", start := 0, end_ := 0, voice := 0, position := "", chars := none }

def lC : PLine :=
  { text := "abc abcde", start := 0, end_ := 0, voice := 0, position := "",
    words := [wC1, wC2] }

def bC : PBlock :=
  { text := "abc abcde", start := 0, end_ := 0, voice := 0, position := "",
    lines := [lC] }

/-- The document of spec scenario C: two words of 3 and 5 characters. -/
def docScenarioC : PDoc := { blocks := [bC] }


/-- C6: for a document with a nonzero total character count and a nonzero
duration, generateLinearTiming stamps the characters in document order with
the rounded cumulative multiples of the per-character duration
totalDurationMs / totalChars; the stamps are strictly increasing whenever the
per-character duration is at least one millisecond; every word, line and
block starts with its first child and ends with its last child; a zero total
character count returns the document unmodified; and processedLyricsJson
invokes the generator exactly when the timing probe finds no positive stamp. -/
theorem c6_linear_timing :
    (∀ (ds : ℚ) (d : PDoc), totalCharsP d = 0 → generateLinearTiming ds d = d) ∧
    (∀ (ds : ℚ) (d : PDoc), hasTimingData d = false →
      processedLyricsJson ds d = generateLinearTiming ds d) ∧
    (∀ (ds : ℚ) (d : PDoc), ds ≠ 0 → totalCharsP d ≠ 0 →
      (allCharsP (generateLinearTiming ds d)).length = totalCharsP d ∧
      ∀ k (hk : k < (allCharsP (generateLinearTiming ds d)).length),
        (allCharsP (generateLinearTiming ds d))[k].start =
          jsRound ((k : ℚ) * (ds * 1000 / (totalCharsP d : ℚ))) ∧
        (allCharsP (generateLinearTiming ds d))[k].end_ =
          jsRound (((k : ℚ) + 1) * (ds * 1000 / (totalCharsP d : ℚ)))) ∧
    (∀ (ds : ℚ) (d : PDoc), ds ≠ 0 → totalCharsP d ≠ 0 →
      1 ≤ ds * 1000 / (totalCharsP d : ℚ) →
      ∀ j k (hj : j < (allCharsP (generateLinearTiming ds d)).length)
        (hk : k < (allCharsP (generateLinearTiming ds d)).length), j < k →
        (allCharsP (generateLinearTiming ds d))[j].start <
          (allCharsP (generateLinearTiming ds d))[k].start ∧
        (allCharsP (generateLinearTiming ds d))[j].end_ <
          (allCharsP (generateLinearTiming ds d))[k].end_) ∧
    (∀ (ds : ℚ) (d : PDoc), ds ≠ 0 → totalCharsP d ≠ 0 →
      spanOK (generateLinearTiming ds d).blocks) := by
  refine ⟨?_, ?_, ?_, ?_, ?_⟩
  · intro ds d h
    by_cases hds : ds = 0 <;> simp [generateLinearTiming, hds, h]
  · intro ds d h
    simp [processedLyricsJson, h]
  · intro ds d h0 h1
    rw [generateLinearTiming_pos ds d h0 h1]
    obtain ⟨hlen, hstamp⟩ :=
      genBlocks_chars (ds * 1000 / (totalCharsP d : ℚ)) d.blocks 0
    constructor
    · rw [show (allCharsP { blocks :=
          (genBlocks (ds * 1000 / (totalCharsP d : ℚ)) 0 d.blocks).1 }).length =
          ((genBlocks (ds * 1000 / (totalCharsP d : ℚ)) 0 d.blocks).1.flatMap fun b =>
            b.lines.flatMap fun l => l.words.flatMap charsOf).length from rfl,
        hlen, ← totalCharsP_eq]
    · intro k hk
      obtain ⟨hs, he⟩ := hstamp k hk
      constructor
      · have hs2 : (allCharsP { blocks :=
            (genBlocks (ds * 1000 / (totalCharsP d : ℚ)) 0 d.blocks).1 })[k].start =
            jsRound (0 + (k : ℚ) * (ds * 1000 / (totalCharsP d : ℚ))) := hs
        rw [hs2]
        congr 1
        ring
      · have he2 : (allCharsP { blocks :=
            (genBlocks (ds * 1000 / (totalCharsP d : ℚ)) 0 d.blocks).1 })[k].end_ =
            jsRound (0 + ((k : ℚ) + 1) * (ds * 1000 / (totalCharsP d : ℚ))) := he
        rw [he2]
        congr 1
        ring
  · intro ds d h0 h1 hmsp j k hj hk hjk
    simp only [generateLinearTiming_pos ds d h0 h1] at hj hk ⊢
    obtain ⟨hlen, hstamp⟩ :=
      genBlocks_chars (ds * 1000 / (totalCharsP d : ℚ)) d.blocks 0
    have hsj : (allCharsP { blocks :=
        (genBlocks (ds * 1000 / (totalCharsP d : ℚ)) 0 d.blocks).1 })[j].start =
        jsRound (0 + (j : ℚ) * (ds * 1000 / (totalCharsP d : ℚ))) := (hstamp j hj).1
    have hsk : (allCharsP { blocks :=
        (genBlocks (ds * 1000 / (totalCharsP d : ℚ)) 0 d.blocks).1 })[k].start =
        jsRound (0 + (k : ℚ) * (ds * 1000 / (totalCharsP d : ℚ))) := (hstamp k hk).1
    have hej : (allCharsP { blocks :=
        (genBlocks (ds * 1000 / (totalCharsP d : ℚ)) 0 d.blocks).1 })[j].end_ =
        jsRound (0 + ((j : ℚ) + 1) * (ds * 1000 / (totalCharsP d : ℚ))) := (hstamp j hj).2
    have hek : (allCharsP { blocks :=
        (genBlocks (ds * 1000 / (totalCharsP d : ℚ)) 0 d.blocks).1 })[k].end_ =
        jsRound (0 + ((k : ℚ) + 1) * (ds * 1000 / (totalCharsP d : ℚ))) := (hstamp k hk).2
    have hjk1 : ((j : ℚ)) + 1 ≤ (k : ℚ) := by exact_mod_cast hjk
    have hprod : (1 : ℚ) ≤ ((k : ℚ) - (j : ℚ)) * (ds * 1000 / (totalCharsP d : ℚ)) := by
      have hd1 : (1 : ℚ) ≤ (k : ℚ) - (j : ℚ) := by linarith
      nlinarith
    have hexp : ((k : ℚ) - (j : ℚ)) * (ds * 1000 / (totalCharsP d : ℚ)) =
        (k : ℚ) * (ds * 1000 / (totalCharsP d : ℚ)) -
          (j : ℚ) * (ds * 1000 / (totalCharsP d : ℚ)) := by ring
    constructor
    · rw [hsj, hsk]
      apply jsRound_lt_of_add_one_le
      rw [hexp] at hprod
      linarith
    · rw [hej, hek]
      apply jsRound_lt_of_add_one_le
      rw [hexp] at hprod
      linarith
  · intro ds d h0 h1
    rw [generateLinearTiming_pos ds d h0 h1]
    exact genBlocks_span (ds * 1000 / (totalCharsP d : ℚ)) d.blocks 0

/-- The only word of the C6 counterexample document: two characters. -/
def wAB : PWord :=
  { text := "ab", start := 0, end_ := 0, voice := 0, position := "", chars := none }

def lAB : PLine :=
  { text := "ab", start := 0, end_ := 0, voice := 0, position := "", words := [wAB] }

def bAB : PBlock :=
  { text := "ab", start := 0, end_ := 0, voice := 0, position := "", lines := [lAB] }

/-- A never-timed document with a single two-character word. -/
def docAB : PDoc := { blocks := [bAB] }

/-- C6 counterexample: with two characters and one millisecond of audio the
per-character duration is half a millisecond, and rounding collapses the two
end stamps to the same value, so the generated char stamps are not strictly
increasing although the document had no timing at all. -/
theorem c6_counterexample :
    hasTimingData docAB = false ∧
    ((allCharsP (generateLinearTiming (1 / 1000) docAB)).map fun c =>
      (c.start, c.end_)) = [(0, 1), (1, 1)] := by
  constructor
  · decide
  · have h0 : (1 / 1000 : ℚ) ≠ 0 := by norm_num
    have hc : totalCharsP docAB ≠ 0 := by decide
    rw [generateLinearTiming_pos _ _ h0 hc]
    have hm : (1 / 1000 : ℚ) * 1000 / (totalCharsP docAB : ℚ) = 1 / 2 := by
      rw [show totalCharsP docAB = 2 from by decide]
      norm_num
    rw [hm]
    have h2 : ("ab" : String).length = 2 := rfl
    have htl : ("ab" : String).toList = ['a', 'b'] := rfl
    simp [docAB, bAB, lAB, wAB, allCharsP, charsOf, genBlocks, genBlock, genLines,
      genLine, genWords, genWord, h2, htl, jsRound_def]
    norm_num

/-- C6 witness: spec scenario C, two words of 3 and 5 characters and eight
seconds of audio; every character lasts 1000 ms, the first word spans 0 to
3000 and the second 3000 to 8000. -/
theorem c6_linear_timing_witness :
    (8 : ℚ) ≠ 0 ∧ totalCharsP docScenarioC ≠ 0 ∧
    (allCharsP (generateLinearTiming 8 docScenarioC)).length = 8 ∧
    ((generateLinearTiming 8 docScenarioC).blocks.flatMap fun b =>
      b.lines.flatMap fun l => l.words.map fun w => (w.start, w.end_)) =
      [(0, 3000), (3000, 8000)] ∧
    ((allCharsP (generateLinearTiming 8 docScenarioC)).map fun c =>
      (c.start, c.end_)) =
      [(0, 1000), (1000, 2000), (2000, 3000), (3000, 4000), (4000, 5000),
       (5000, 6000), (6000, 7000), (7000, 8000)] := by
  have h8 : (8 : ℚ) ≠ 0 := by norm_num
  have hc : totalCharsP docScenarioC ≠ 0 := by decide
  have hlen := (c6_linear_timing.2.2.1 8 docScenarioC h8 hc).1
  have h3 : ("abc" : String).length = 3 := rfl
  have h5 : ("abcde" : String).length = 5 := rfl
  have htl3 : ("abc" : String).toList = ['a', 'b', 'c'] := rfl
  have htl5 : ("abcde" : String).toList = ['a', 'b', 'c', 'd', 'e'] := rfl
  have hm : (8 : ℚ) * 1000 / (totalCharsP docScenarioC : ℚ) = 1000 := by
    rw [show totalCharsP docScenarioC = 8 from by decide]
    norm_num
  refine ⟨h8, hc, ?_, ?_, ?_⟩
  · rw [hlen, show totalCharsP docScenarioC = 8 from by decide]
  · rw [generateLinearTiming_pos 8 docScenarioC h8 hc, hm]
    simp [docScenarioC, bC, lC, wC1, wC2, genBlocks, genBlock, genLines, genLine,
      genWords, genWord, h3, h5, jsRound_def]
    norm_num
  · rw [generateLinearTiming_pos 8 docScenarioC h8 hc, hm]
    simp [docScenarioC, bC, lC, wC1, wC2, allCharsP, charsOf, genBlocks, genBlock,
      genLines, genLine, genWords, genWord, h3, h5, htl3, htl5, jsRound_def]
    norm_num

/-! ## C3: idempotence of the export cleanup -/

/-- The chars array of the word, when present, is nonempty and fully timed,
so the chars stage leaves it alone on a second pass. -/
def fullTimedWord (w : Word) : Bool :=
  match w.chars with
  | none => true
  | some cs => decide (timedCharsCount cs = cs.length) && decide (cs.length ≠ 0)

/-- The words array of the line, when present, is nonempty, fully timed, and
all its words are stable for the chars stage. -/
def fullTimedLine (l : Line) : Bool :=
  match l.words with
  | none => true
  | some ws => decide (timedWordsCount ws = ws.length) && decide (ws.length ≠ 0) &&
      ws.all fullTimedWord

/-- The lines of the block are not a strict mix, and every line is stable. -/
def stableBlock (b : Block) : Bool :=
  decide (¬ strictMix (timedLinesCount b.lines) b.lines.length) &&
  b.lines.all fullTimedLine

/-- Every sibling group of the document is either fully timed or fully
untimed, so the interpolation pass leaves the document alone. -/
def stableDoc (d : Doc) : Bool := d.blocks.all stableBlock

theorem interpChars_fix (lv : ℕ) (w : Word) (h : fullTimedWord w = true) :
    interpChars lv w = w := by
  cases hcs : w.chars with
  | none => simp [interpChars, hcs]
  | some cs =>
    simp only [fullTimedWord, hcs, Bool.and_eq_true, decide_eq_true_eq] at h
    obtain ⟨hfull, hne⟩ := h
    simp only [interpChars, hcs]
    rw [interpCharsArr_full _ _ _ _ _ (by omega) (by omega), ← hcs]

theorem cleanupLine_fix (l : Line) (h : fullTimedLine l = true) :
    cleanupLine l = l := by
  cases hws : l.words with
  | none => exact cleanupLine_words_none l hws
  | some ws =>
    simp only [fullTimedLine, hws, Bool.and_eq_true, decide_eq_true_eq,
      List.all_eq_true] at h
    obtain ⟨⟨hfull, hne⟩, hall⟩ := h
    have harr : interpWordsArr l.start l.end_ l.voice ws = some ws :=
      interpWordsArr_full _ _ _ _ (by omega) (by omega)
    rw [cleanupLine_of_arr_some l ws ws hws harr]
    have hmap : ws.map (interpChars l.voice) = ws := by
      rw [show ws.map (interpChars l.voice) = ws.map id from
        List.map_congr_left fun w hw => interpChars_fix l.voice w (hall w hw),
        List.map_id]
    rw [hmap, ← hws]

theorem cleanupBlock_fix (b : Block) (h : stableBlock b = true) :
    cleanupBlock b = b := by
  simp only [stableBlock, Bool.and_eq_true, decide_eq_true_eq,
    List.all_eq_true] at h
  obtain ⟨hmix, hall⟩ := h
  show { b with lines :=
    (interpLinesArr b.start b.end_ b.voice b.lines).map cleanupLine } = b
  rw [interpLinesArr_nomix _ _ _ _ hmix,
    show b.lines.map cleanupLine = b.lines.map id from
      List.map_congr_left fun l hl => cleanupLine_fix l (hall l hl),
    List.map_id]

theorem interpDoc_fix (d : Doc) (h : stableDoc d = true) : interpDoc d = d := by
  simp only [stableDoc, List.all_eq_true] at h
  show { blocks := d.blocks.map cleanupBlock } = d
  rw [show d.blocks.map cleanupBlock = d.blocks.map id from
    List.map_congr_left fun b hb => cleanupBlock_fix b (h b hb), List.map_id]

theorem clearWordText_idem (w : Word) :
    clearWordText (clearWordText w) = clearWordText w := by
  cases hcs : w.chars with
  | none => simp [clearWordText, hcs]
  | some cs => by_cases hl : 0 < cs.length <;> simp [clearWordText, hcs, hl]

theorem clearLineText_idem (l : Line) :
    clearLineText (clearLineText l) = clearLineText l := by
  cases hws : l.words with
  | none =>
    have h : clearLineText l = l := by simp [clearLineText, hws]
    rw [h, h]
  | some ws =>
    by_cases hl : 0 < ws.length
    · simp [clearLineText, hws, hl, List.map_map, Function.comp,
        clearWordText_idem]
    · have hnil : ws = [] := List.eq_nil_of_length_eq_zero (by omega)
      subst hnil
      simp [clearLineText, hws]

theorem clearBlockText_idem (b : Block) :
    clearBlockText (clearBlockText b) = clearBlockText b := by
  by_cases hl : 0 < b.lines.length
  · simp [clearBlockText, hl, List.map_map, Function.comp, clearLineText_idem]
  · have hnil : b.lines = [] := List.eq_nil_of_length_eq_zero (by omega)
    simp [clearBlockText, hnil]

theorem clearTextsDoc_idem (d : Doc) :
    clearTextsDoc (clearTextsDoc d) = clearTextsDoc d := by
  simp [clearTextsDoc, List.map_map, Function.comp, clearBlockText_idem]

/-- C3: the export cleanup pass is idempotent on every document whose first
pass leaves each sibling group either fully timed or fully untimed; a second
pass then repeats neither interpolation nor deletion, and text clearing is
idempotent on its own. -/
theorem c3_cleanup_idempotent (d : Doc)
    (h : stableDoc (cleanupTimingData d) = true) :
    cleanupTimingData (cleanupTimingData d) = cleanupTimingData d := by
  show clearTextsDoc (interpDoc (cleanupTimingData d)) = cleanupTimingData d
  rw [interpDoc_fix _ h]
  show clearTextsDoc (clearTextsDoc (interpDoc d)) = clearTextsDoc (interpDoc d)
  exact clearTextsDoc_idem _

/-- A document the cleanup pass leaves stable: every group fully timed. -/
def docStable : Doc :=
  { blocks := [{ text := "t", start := 1, end_ := 2, voice := 0, position := "",
                 lines := [{ text := "t", start := 1, end_ := 2, voice := 0,
                             position := "",
                             words := some [{ text := "t", start := 3, end_ := 4,
                                              voice := 0, position := "",
                                              chars := none }] }] }] }

/-- C3 witness: on docStable the first pass output is stable and the second
pass changes nothing. -/
theorem c3_cleanup_idempotent_witness :
    stableDoc (cleanupTimingData docStable) = true ∧
    cleanupTimingData (cleanupTimingData docStable) = cleanupTimingData docStable :=
  ⟨by decide, c3_cleanup_idempotent docStable (by decide)⟩

/-- The idempotence counterexample: an untimed line over a strictly mixed
words array.  The first pass redistributes the words inside the sentinel
line bounds 0 to 0, collapsing every word stamp to the sentinel; the second
pass then deletes the words array. -/
def docC3 : Doc :=
  { blocks := [{ text := "", start := 0, end_ := 0, voice := 0, position := "",
                 lines := [{ text := "a b", start := 0, end_ := 0, voice := 0,
                             position := "",
                             words := some
                               [{ text := "a", start := 5, end_ := 10, voice := 0,
                                  position := "", chars := none },
                                { text := "b", start := 0, end_ := 0, voice := 0,
                                  position := "", chars := none }] }] }] }

/-- The first pass output on docC3: both words collapsed to the sentinel. -/
def docC3out : Doc :=
  { blocks := [{ text := "", start := 0, end_ := 0, voice := 0, position := "",
                 lines := [{ text := "", start := 0, end_ := 0, voice := 0,
                             position := "",
                             words := some
                               [{ text := "a", start := 0, end_ := 0, voice := 0,
                                  position := "", chars := none },
                                { text := "b", start := 0, end_ := 0, voice := 0,
                                  position := "", chars := none }] }] }] }

/-- C3 counterexample: the first cleanup pass keeps the words array of docC3
but zeroes its stamps, and the second pass deletes it, so running the pass
twice differs from running it once. -/
theorem c3_counterexample :
    ((cleanupTimingData docC3).blocks.map fun b =>
      b.lines.map fun l => l.words.isSome) = [[true]] ∧
    ((cleanupTimingData (cleanupTimingData docC3)).blocks.map fun b =>
      b.lines.map fun l => l.words.isSome) = [[false]] ∧
    cleanupTimingData (cleanupTimingData docC3) ≠ cleanupTimingData docC3 := by
  have e1 : interpStart 0 0 2 0 = 0 := by
    rw [interpStart_eval _ _ _ _ (by norm_num)]
    decide
  have e2 : interpStart 0 0 2 1 = 0 := by
    rw [interpStart_eval _ _ _ _ (by norm_num)]
    decide
  have e3 : interpEnd 0 0 2 0 = 0 := by
    rw [interpEnd_eval _ _ _ _ (by norm_num)]
    decide
  have e4 : interpEnd 0 0 2 1 = 0 := by
    rw [interpEnd_eval _ _ _ _ (by norm_num)]
    decide
  have hfirst : cleanupTimingData docC3 = docC3out := by
    simp [cleanupTimingData, interpDoc, clearTextsDoc, cleanupBlock, cleanupLine,
      interpWords, interpWordsArr, interpLinesArr, interpChars, clearBlockText,
      clearLineText, clearWordText, timedTok, jsOrV, docC3, docC3out,
      e1, e2, e3, e4]
  rw [hfirst]
  refine ⟨by decide, by decide, by decide⟩

end Karaoke
